import Mathlib

/-!
Verification of the range-block / range-border core of the `egui_hex06`
repository (files `src/range_blocks.rs` and `src/range_border.rs`).

Modelling conventions:
* Rust `u64` / `usize` values are modelled as `Nat`.  None of the verified
  operations rely on wrap-around behaviour; where the source can underflow
  (checked arithmetic panic) the model returns `none`.
* A Rust function that can panic is modelled with an `Option` result where
  `none` is the panic (for iterator-search functions the normal
  `Option<(u64,u64)>` result becomes the inner `Option`).
* The single floating-point computation (`max_recursion_level`, which takes an
  `f32` logarithm) is modelled by its exact real-arithmetic value, see the
  doc comment there.
* Byte buffers (`&[u8]`) are modelled as `List Nat`; closures passed as
  filters are modelled as pure functions `Nat → Nat → Bool` (all closures used
  by the verified claims are stateless).
-/

/-- Integer cell coordinates, from `range_blocks.rs` (`struct CellCoords`). -/
structure CellCoords where
  x : Nat
  y : Nat

deriving instance DecidableEq, Repr for CellCoords

/-- The accumulator loop of `get_cell_offset` (`range_blocks.rs` lines 22-35):
`while index > 0 { let d = index % B²; x += (d % B) * scale; y += (d / B) * scale;
index /= B²; scale *= B }`.  The loop terminates because `index / B²` strictly
decreases when `B ≥ 2`; the hypothesis records that the caller has that bound. -/
def get_cell_offset_go (sub_block_sqrt : Nat) (hB : 2 ≤ sub_block_sqrt)
    (index x y scale : Nat) : CellCoords :=
  if h : index = 0 then ⟨x, y⟩
  else
    have hlt : index / (sub_block_sqrt * sub_block_sqrt) < index :=
      Nat.div_lt_self (Nat.pos_of_ne_zero h) (by nlinarith)
    get_cell_offset_go sub_block_sqrt hB (index / (sub_block_sqrt * sub_block_sqrt))
      (x + index % (sub_block_sqrt * sub_block_sqrt) % sub_block_sqrt * scale)
      (y + index % (sub_block_sqrt * sub_block_sqrt) / sub_block_sqrt * scale)
      (scale * sub_block_sqrt)
termination_by index

/-- `get_cell_offset` from `range_blocks.rs` lines 21-38.  The source function
has no guard on `sub_block_sqrt`: for `sub_block_sqrt = 0` and `index > 0` the
first `index % 0` panics, and for `sub_block_sqrt = 1` the loop never makes
progress (`index /= 1`), so for `sub_block_sqrt ≤ 1` and `index > 0` the call
never returns normally - modelled as `none`.  For `index = 0` the loop body is
never entered and `(0, 0)` is returned whatever `sub_block_sqrt` is. -/
def get_cell_offset (index sub_block_sqrt : Nat) : Option CellCoords :=
  if h : 2 ≤ sub_block_sqrt then
    some (get_cell_offset_go sub_block_sqrt h index 0 0 1)
  else if index = 0 then some ⟨0, 0⟩
  else none

/-- Unfolding lemma: the loop with `index = 0` returns the accumulators. -/
theorem get_cell_offset_go_zero (B : Nat) (hB : 2 ≤ B) (x y s : Nat) :
    get_cell_offset_go B hB 0 x y s = ⟨x, y⟩ := by
  rw [get_cell_offset_go]
  simp

/-- Unfolding lemma: one iteration of the loop for a non-zero index. -/
theorem get_cell_offset_go_succ (B : Nat) (hB : 2 ≤ B) (i x y s : Nat) (h : ¬i = 0) :
    get_cell_offset_go B hB i x y s =
      get_cell_offset_go B hB (i / (B * B))
        (x + i % (B * B) % B * s) (y + i % (B * B) / B * s) (s * B) := by
  rw [get_cell_offset_go]
  simp [h]

/-- Decoder used only in proofs: reads the base-`B` digits of the two
coordinates back into an interleaved base-`B²` index. -/
def cell_decode (B : Nat) (hB : 2 ≤ B) (x y : Nat) : Nat :=
  if h : x = 0 ∧ y = 0 then 0
  else
    have hlt : x / B + y / B < x + y := by
      rcases Nat.eq_zero_or_pos x with h0 | h0
      · have hy0 : 0 < y := by
          rcases Nat.eq_zero_or_pos y with h1 | h1
          · exact absurd ⟨h0, h1⟩ h
          · exact h1
        have h2 : y / B < y := Nat.div_lt_self hy0 (by omega)
        have h3 : x / B ≤ x := Nat.div_le_self _ _
        omega
      · have h2 : x / B < x := Nat.div_lt_self h0 (by omega)
        have h3 : y / B ≤ y := Nat.div_le_self _ _
        omega
    (x % B + B * (y % B)) + (B * B) * cell_decode B hB (x / B) (y / B)
termination_by x + y

/-- The accumulators of the `get_cell_offset` loop only translate and scale the
result computed from zero accumulators. -/
theorem get_cell_offset_go_acc (B : Nat) (hB : 2 ≤ B) :
    ∀ i x y s, get_cell_offset_go B hB i x y s =
      ⟨x + s * (get_cell_offset_go B hB i 0 0 1).x,
       y + s * (get_cell_offset_go B hB i 0 0 1).y⟩ := by
  intro i
  induction i using Nat.strong_induction_on with
  | _ i ih =>
    intro x y s
    by_cases h : i = 0
    · subst h
      rw [get_cell_offset_go_zero, get_cell_offset_go_zero]
      simp
    · have hlt : i / (B * B) < i := Nat.div_lt_self (Nat.pos_of_ne_zero h) (by nlinarith)
      rw [get_cell_offset_go_succ B hB i x y s h,
          get_cell_offset_go_succ B hB i 0 0 1 h]
      rw [ih _ hlt (x + i % (B * B) % B * s) (y + i % (B * B) / B * s) (s * B),
          ih _ hlt (0 + i % (B * B) % B * 1) (0 + i % (B * B) / B * 1) (1 * B)]
      simp only [CellCoords.mk.injEq]
      constructor <;> ring

/-- Round-trip: `cell_decode` inverts the cell-coordinate map.  This is the
injectivity core for claim C6. -/
theorem cell_decode_get_cell_offset_go (B : Nat) (hB : 2 ≤ B) :
    ∀ i, cell_decode B hB (get_cell_offset_go B hB i 0 0 1).x
      (get_cell_offset_go B hB i 0 0 1).y = i := by
  intro i
  induction i using Nat.strong_induction_on with
  | _ i ih =>
    by_cases h : i = 0
    · subst h
      rw [get_cell_offset_go_zero]
      rw [cell_decode]
      simp
    · have hBpos : 0 < B := by omega
      have hlt : i / (B * B) < i := Nat.div_lt_self (Nat.pos_of_ne_zero h) (by nlinarith)
      rw [get_cell_offset_go_succ B hB i 0 0 1 h]
      rw [get_cell_offset_go_acc B hB (i / (B * B))]
      set cx := (get_cell_offset_go B hB (i / (B * B)) 0 0 1).x with hcx
      set cy := (get_cell_offset_go B hB (i / (B * B)) 0 0 1).y with hcy
      simp only [Nat.zero_add, Nat.mul_one, Nat.one_mul]
      have hmodlt : i % (B * B) < B * B := Nat.mod_lt _ (by positivity)
      have hd1 : i % (B * B) % B < B := Nat.mod_lt _ hBpos
      have hd2 : i % (B * B) / B < B := Nat.div_lt_iff_lt_mul hBpos |>.mpr hmodlt
      have hrec : cell_decode B hB cx cy = i / (B * B) := by
        rw [hcx, hcy]; exact ih _ hlt
      rw [cell_decode]
      by_cases hz : i % (B * B) % B + B * cx = 0 ∧ i % (B * B) / B + B * cy = 0
      · exfalso
        obtain ⟨hz1, hz2⟩ := hz
        have h5 := Nat.add_eq_zero.mp hz1
        have h6 := Nat.add_eq_zero.mp hz2
        have hcx0 : cx = 0 := by
          rcases Nat.mul_eq_zero.mp h5.2 with h7 | h7
          · omega
          · exact h7
        have hcy0 : cy = 0 := by
          rcases Nat.mul_eq_zero.mp h6.2 with h7 | h7
          · omega
          · exact h7
        have hm1 : i % (B * B) % B = 0 := h5.1
        have hm2 : i % (B * B) / B = 0 := h6.1
        have hmod0 := Nat.mod_add_div (i % (B * B)) B
        have hmodz : i % (B * B) = 0 := by
          rw [← hmod0, hm1, hm2, Nat.mul_zero]
        rw [hcx0, hcy0] at hrec
        have hdec0 : cell_decode B hB 0 0 = 0 := by
          rw [cell_decode]; simp
        have hdiv0 : i / (B * B) = 0 := by rw [← hrec, hdec0]
        have hsplit := Nat.mod_add_div i (B * B)
        rw [hmodz, hdiv0, Nat.mul_zero, Nat.zero_add] at hsplit
        exact h hsplit.symm
      · rw [dif_neg hz]
        have e1 : (i % (B * B) % B + B * cx) % B = i % (B * B) % B := by
          rw [Nat.add_mul_mod_self_left (i % (B * B) % B) B cx]
          exact Nat.mod_eq_of_lt hd1
        have e2 : (i % (B * B) % B + B * cx) / B = cx := by
          rw [Nat.add_mul_div_left _ _ hBpos, Nat.div_eq_of_lt hd1]
          omega
        have e3 : (i % (B * B) / B + B * cy) % B = i % (B * B) / B := by
          rw [Nat.add_mul_mod_self_left (i % (B * B) / B) B cy]
          exact Nat.mod_eq_of_lt hd2
        have e4 : (i % (B * B) / B + B * cy) / B = cy := by
          rw [Nat.add_mul_div_left _ _ hBpos, Nat.div_eq_of_lt hd2]
          omega
        have h1 : i % (B * B) % B + B * (i % (B * B) / B) = i % (B * B) :=
          Nat.mod_add_div _ _
        have h2 : i % (B * B) + B * B * (i / (B * B)) = i := Nat.mod_add_div _ _
        simp only [e1, e2, e3, e4, hrec, h1, h2]

/-- C6: `get_cell_offset` is injective; over any index range, two distinct
indices never produce the same `CellCoords` (stated for branch factor `> 1`,
with the range bound `B ^ (2 * M)` from the claim carried as hypotheses). -/
theorem get_cell_offset_injective (B M i j : Nat) (hB : 1 < B)
    (hi : i < B ^ (2 * M)) (hj : j < B ^ (2 * M))
    (h : get_cell_offset i B = get_cell_offset j B) : i = j := by
  have hB2 : 2 ≤ B := hB
  unfold get_cell_offset at h
  rw [dif_pos hB2, dif_pos hB2] at h
  have h' : get_cell_offset_go B hB2 i 0 0 1 = get_cell_offset_go B hB2 j 0 0 1 :=
    Option.some_inj.mp h
  have hi' := cell_decode_get_cell_offset_go B hB2 i
  have hj' := cell_decode_get_cell_offset_go B hB2 j
  rw [← hi', ← hj', h']

/-- Witness for C6 at concrete values (B = 4, M = 1, indices 5 and 5). -/
theorem get_cell_offset_injective_witness :
    (1 : Nat) < 4 ∧ 5 < 4 ^ (2 * 1) ∧ (5 : Nat) = 5 :=
  ⟨by decide, by decide,
    get_cell_offset_injective 4 1 5 5 (by decide) (by decide) (by decide) rfl⟩

/-- `range_block_size` from `range_blocks.rs` lines 60-62:
`sub_block_sqrt.pow(2 * recursion_level)`. -/
def range_block_size (recursion_level : Nat) (sub_block_sqrt : Nat) : Nat :=
  sub_block_sqrt ^ (2 * recursion_level)

/-- Bounded upward search for the least `l' ≥ l` with `n ≤ bsq ^ l'`;
helper for `max_recursion_level`. -/
def max_recursion_level_go (bsq n : Nat) : Nat → Nat → Nat
  | 0, l => l
  | fuel + 1, l => if n ≤ bsq ^ l then l else max_recursion_level_go bsq n fuel (l + 1)

/-- `max_recursion_level` from `range_blocks.rs` lines 66-70.  The source
computes `(data_len as f32).log((B * B) as f32).ceil() as u32`.  The
floating-point computation is modelled here by its exact real value: for
`B ≥ 2` and `data_len ≥ 1`, `⌈log_{B²}(data_len)⌉` is the least `L` with
`(B²)^L ≥ data_len`, and for `data_len = 0` the logarithm is `-∞` whose
ceiling the saturating `as u32` cast turns into `0` - which the search below
also returns.  The least such `L` is at most `data_len` when `B ≥ 2`, so
`data_len` steps of fuel always suffice.  This idealization is NOT faithful
for large `data_len`: the source's result depends on `data_len` only through
the `u64 → f32` cast (modelled exactly by `to_f32_nat` below), which already
collapses `2^24 + 1` to `2^24`, so the source cannot compute the least `L`
for every input; see `max_recursion_level_f32_cast_collapse`. -/
def max_recursion_level (data_len : Nat) (sub_block_sqrt : Nat) : Nat :=
  max_recursion_level_go (sub_block_sqrt * sub_block_sqrt) data_len data_len 0

/-- The fuel search returns the least exponent at or above its lower bound,
provided the fuel reaches some valid exponent. -/
theorem max_recursion_level_go_spec (bsq n : Nat) :
    ∀ fuel l, n ≤ bsq ^ (l + fuel) →
      (n ≤ bsq ^ max_recursion_level_go bsq n fuel l ∧
       l ≤ max_recursion_level_go bsq n fuel l ∧
       ∀ m, l ≤ m → n ≤ bsq ^ m → max_recursion_level_go bsq n fuel l ≤ m) := by
  intro fuel
  induction fuel with
  | zero =>
    intro l h
    rw [max_recursion_level_go]
    exact ⟨by simpa using h, le_refl l, fun m hm _ => hm⟩
  | succ fuel ih =>
    intro l h
    rw [max_recursion_level_go]
    by_cases hc : n ≤ bsq ^ l
    · rw [if_pos hc]
      exact ⟨hc, le_refl l, fun m hm _ => hm⟩
    · rw [if_neg hc]
      have h' : n ≤ bsq ^ (l + 1 + fuel) := by
        rw [show l + 1 + fuel = l + (fuel + 1) by omega]
        exact h
      obtain ⟨a, b2, c⟩ := ih (l + 1) h'
      refine ⟨a, by omega, fun m hm hnm => ?_⟩
      have hm1 : l + 1 ≤ m := by
        rcases Nat.eq_or_lt_of_le hm with h1 | h1
        · exact absurd (h1 ▸ hnm) hc
        · omega
      exact c m hm1 hnm

/-- For every buffer length `N` and branch factor `B > 1`, the
exact-arithmetic model `max_recursion_level N B` is the smallest
non-negative `L` with `B ^ (2L) ≥ N`. -/
theorem max_recursion_level_is_least (N B : Nat) (hB : 1 < B) :
    N ≤ B ^ (2 * max_recursion_level N B) ∧
    ∀ L, N ≤ B ^ (2 * L) → max_recursion_level N B ≤ L := by
  have hb : 2 ≤ B * B := by nlinarith
  have key : ∀ L, B ^ (2 * L) = (B * B) ^ L := by
    intro L
    rw [pow_mul, pow_two]
  have hfuel : N ≤ (B * B) ^ (0 + N) := by
    rw [Nat.zero_add]
    calc N ≤ 2 ^ N := Nat.le_of_lt (Nat.lt_two_pow N)
    _ ≤ (B * B) ^ N := Nat.pow_le_pow_left hb N
  obtain ⟨a, _, c⟩ := max_recursion_level_go_spec (B * B) N N 0 hfuel
  constructor
  · rw [key]
    exact a
  · intro L hL
    rw [key] at hL
    exact c L (Nat.zero_le L) hL

/-- The least-level lemma evaluated at `N = 256`, `B = 4` (also checking
minimality at `L = 2`). -/
theorem max_recursion_level_is_least_witness :
    (1 : Nat) < 4 ∧ 256 ≤ 4 ^ (2 * max_recursion_level 256 4) ∧
      max_recursion_level 256 4 ≤ 2 :=
  ⟨by decide, (max_recursion_level_is_least 256 4 (by decide)).1,
    (max_recursion_level_is_least 256 4 (by decide)).2 2 (by decide)⟩

/-- Number of halvings needed to bring `n` below `2^24`; helper for
`to_f32_nat`.  64 steps of fuel cover every `u64` value. -/
def f32_exp_go : Nat → Nat → Nat
  | 0, _ => 0
  | fuel + 1, n => if n < 2 ^ 24 then 0 else f32_exp_go fuel (n / 2) + 1

/-- Exact model of the Rust cast `data_len as f32` for a `u64` input,
returning the value of the resulting float as a natural number.  `f32` has a
24-bit significand, so a `u64` below `2^24` is converted exactly; a larger
one is rounded to a multiple of `2^e` (where `n / 2^e` has 24 bits) by
round-to-nearest, ties-to-even - the rounding mode of Rust integer-to-float
casts.  No `u64` overflows `f32`'s exponent range, so no infinity case is
needed. -/
def to_f32_nat (n : Nat) : Nat :=
  let e := f32_exp_go 64 n
  let q := n / 2 ^ e
  let r := n % 2 ^ e
  let q2 :=
    if 2 * r < 2 ^ e then q
    else if 2 ^ e < 2 * r then q + 1
    else if q % 2 = 0 then q else q + 1
  q2 * 2 ^ e

/-- The `u64 → f32` cast at the start of the source's
`(data_len as f32).log(...).ceil() as u32` pipeline collapses `2^24 + 1`
to `2^24`, while the least levels at those two lengths (branch factor 2)
differ: 12 versus 13.  So the source function, whose output depends on
`data_len` only through this cast, cannot return the least level at both. -/
theorem max_recursion_level_f32_cast_collapse :
    to_f32_nat (2 ^ 24 + 1) = to_f32_nat (2 ^ 24) ∧
    to_f32_nat (2 ^ 24) = 2 ^ 24 ∧
    max_recursion_level (2 ^ 24) 2 = 12 ∧
    max_recursion_level (2 ^ 24 + 1) 2 = 13 := by
  refine ⟨by decide, by decide, ?_, ?_⟩
  · have h := max_recursion_level_is_least (2 ^ 24) 2 (by decide)
    have h1 := h.2 12 (by norm_num)
    have h2 := h.1
    by_contra hne
    have hlt : max_recursion_level (2 ^ 24) 2 ≤ 11 := by omega
    have : (2 : Nat) ^ (2 * max_recursion_level (2 ^ 24) 2) ≤ 2 ^ 22 :=
      Nat.pow_le_pow_right (by norm_num) (by omega)
    have : (2 : Nat) ^ 24 ≤ 2 ^ 22 := le_trans h2 this
    norm_num at this
  · have h := max_recursion_level_is_least (2 ^ 24 + 1) 2 (by decide)
    have h1 := h.2 13 (by norm_num)
    have h2 := h.1
    by_contra hne
    have hlt : max_recursion_level (2 ^ 24 + 1) 2 ≤ 12 := by omega
    have : (2 : Nat) ^ (2 * max_recursion_level (2 ^ 24 + 1) 2) ≤ 2 ^ 24 :=
      Nat.pow_le_pow_right (by norm_num) (by omega)
    have : (2 : Nat) ^ 24 + 1 ≤ 2 ^ 24 := le_trans h2 this
    norm_num at this

/-- C2: corrected.  The source computes the maximum recursion level through
an `f32` cast and logarithm, so its output is a function of
`to_f32_nat data_len`; since the cast collapses `2^24 + 1` to `2^24` while
the least levels there differ, NO such function - in particular the source -
returns the least `L` with `B^(2L) ≥ data_len` for every `data_len` (first
conjunct, at `B = 2`).  The exact-arithmetic idealization
`max_recursion_level` does return that least `L` for every `N` and `B > 1`
(second conjunct). -/
theorem max_recursion_level_least_amended :
    (∀ level : Nat → Nat,
      (∃ g : Nat → Nat, ∀ n, level n = g (to_f32_nat n)) →
      ¬(∀ n, n ≤ 2 ^ (2 * level n) ∧ ∀ L, n ≤ 2 ^ (2 * L) → level n ≤ L)) ∧
    (∀ N B, 1 < B →
      N ≤ B ^ (2 * max_recursion_level N B) ∧
      ∀ L, N ≤ B ^ (2 * L) → max_recursion_level N B ≤ L) := by
  constructor
  · rintro level ⟨g, hg⟩ hP
    have hc : to_f32_nat (2 ^ 24 + 1) = to_f32_nat (2 ^ 24) := by decide
    have h1 : level (2 ^ 24 + 1) = level (2 ^ 24) := by
      rw [hg (2 ^ 24 + 1), hc, ← hg (2 ^ 24)]
    have h2 := (hP (2 ^ 24)).2 12 (by norm_num)
    have h3 := (hP (2 ^ 24 + 1)).1
    rw [h1] at h3
    have h4 : (2 : Nat) ^ (2 * level (2 ^ 24)) ≤ 2 ^ (2 * 12) :=
      Nat.pow_le_pow_right (by norm_num) (by omega)
    have h5 : (2 : Nat) ^ 24 + 1 ≤ 2 ^ 24 := by
      calc (2 : Nat) ^ 24 + 1 ≤ 2 ^ (2 * level (2 ^ 24)) := h3
        _ ≤ 2 ^ (2 * 12) := h4
        _ = 2 ^ 24 := by norm_num
    norm_num at h5
  · intro N B hB
    exact max_recursion_level_is_least N B hB

/-- Witness for C2: the amended theorem's positive part applied at
`N = 256`, `B = 4`, checking both the bound and minimality at `L = 2`. -/
theorem max_recursion_level_least_amended_witness :
    (1 : Nat) < 4 ∧ 256 ≤ 4 ^ (2 * max_recursion_level 256 4) ∧
      max_recursion_level 256 4 ≤ 2 :=
  ⟨by decide, (max_recursion_level_least_amended.2 256 4 (by decide)).1,
    (max_recursion_level_least_amended.2 256 4 (by decide)).2 2 (by decide)⟩

/-- `range_block_corners` from `range_blocks.rs` lines 43-57.  The source
computes `index + count - 1` in u64 arithmetic: for `index = count = 0` that
subtraction underflows, a panic under checked arithmetic - modelled as
`none`.  A `none` from `get_cell_offset` (branch factor ≤ 1, see there) is
propagated. -/
def range_block_corners (index count sub_block_sqrt : Nat) :
    Option (CellCoords × CellCoords) :=
  if index + count = 0 then none
  else
    match get_cell_offset index sub_block_sqrt,
        get_cell_offset (index + count - 1) sub_block_sqrt with
    | some top_left, some bottom_right =>
        some (top_left, ⟨bottom_right.x + 1, bottom_right.y + 1⟩)
    | _, _ => none

/-- Concrete evaluation: `get_cell_offset 0 2 = (0, 0)`. -/
theorem get_cell_offset_zero_two : get_cell_offset 0 2 = some ⟨0, 0⟩ := by
  simp [get_cell_offset, get_cell_offset_go_zero]

/-- Concrete evaluation: `get_cell_offset 1 2 = (1, 0)`. -/
theorem get_cell_offset_one_two : get_cell_offset 1 2 = some ⟨1, 0⟩ := by
  have h2 : 2 ≤ 2 := by norm_num
  rw [get_cell_offset, dif_pos h2,
    get_cell_offset_go_succ 2 h2 1 0 0 1 (by norm_num)]
  norm_num
  rw [get_cell_offset_go_zero]

/-- Counterexample to C10 as stated: with `count = 0` but `index = 1` the
expression `index + count - 1` does not underflow, and `range_block_corners`
returns a (degenerate) corner pair instead of panicking. -/
theorem range_block_corners_count_zero_no_underflow :
    range_block_corners 1 0 2 = some (⟨1, 0⟩, ⟨1, 1⟩) := by
  rw [range_block_corners, if_neg (by norm_num)]
  rw [show (1 + 0 - 1 : Nat) = 0 by norm_num]
  rw [get_cell_offset_one_two, get_cell_offset_zero_two]

/-- C10 (amended): `range_block_corners` performs no validation of `count`;
with `count = 0` and `index = 0` the expression `index + count - 1`
underflows u64 (a panic under checked arithmetic, modelled as `none`), while
with `count = 0` and `index ≥ 1` no underflow occurs and a degenerate corner
pair is returned. -/
theorem range_block_corners_count_zero (B : Nat) :
    range_block_corners 0 0 B = none ∧
      range_block_corners 1 0 2 = some (⟨1, 0⟩, ⟨1, 1⟩) := by
  constructor
  · rw [range_block_corners]
    simp
  · exact range_block_corners_count_zero_no_underflow

/-- `u64::next_multiple_of`: the smallest multiple of `m` at or above `a`.
Only used with `m ≥ 1` (Rust panics on `m = 0`, unreachable in this code). -/
def next_multiple_of (a m : Nat) : Nat :=
  (a + m - 1) / m * m

/-- Rounding up to a multiple never moves down. -/
theorem next_multiple_of_ge (a m : Nat) (hm : 0 < m) : a ≤ next_multiple_of a m := by
  unfold next_multiple_of
  rw [Nat.mul_comm]
  have h1 := Nat.div_add_mod (a + m - 1) m
  have h2 : (a + m - 1) % m < m := Nat.mod_lt _ hm
  set X := m * ((a + m - 1) / m) with hX
  omega

/-- The rounded value is a multiple of `m`. -/
theorem next_multiple_of_mod (a m : Nat) : next_multiple_of a m % m = 0 :=
  Nat.mul_mod_left _ _

/-- Rounding up an exact multiple is the identity. -/
theorem next_multiple_of_eq (a m : Nat) (hm : 0 < m) (h : a % m = 0) :
    next_multiple_of a m = a := by
  obtain ⟨q, rfl⟩ := Nat.dvd_of_mod_eq_zero h
  unfold next_multiple_of
  have h1 : m * q + m - 1 = m * q + (m - 1) := by omega
  rw [h1, Nat.mul_add_div hm, Nat.div_eq_of_lt (by omega), Nat.add_zero, Nat.mul_comm]

/-- Downward scan `(lo..=hi).rev().find(p)`, as used by `next_range_block`
(`range_blocks.rs` lines 108-111) and by
`next_complete_largest_range_block` (lines 201-207). -/
def find_down (p : Nat → Bool) (lo : Nat) : Nat → Option Nat
  | 0 => if 0 < lo then none else if p 0 then some 0 else none
  | hi + 1 =>
    if hi + 1 < lo then none
    else if p (hi + 1) then some (hi + 1) else find_down p lo hi

/-- A hit of the downward scan lies in the range and satisfies the predicate. -/
theorem find_down_some (p : Nat → Bool) (lo : Nat) :
    ∀ hi m, find_down p lo hi = some m → lo ≤ m ∧ m ≤ hi ∧ p m = true := by
  intro hi
  induction hi with
  | zero =>
    intro m h
    rw [find_down] at h
    by_cases h0 : 0 < lo
    · rw [if_pos h0] at h
      exact absurd h (by simp)
    · rw [if_neg h0] at h
      by_cases hp : p 0
      · rw [if_pos hp] at h
        have : m = 0 := (Option.some_inj.mp h).symm
        subst this
        exact ⟨by omega, le_refl 0, hp⟩
      · rw [if_neg hp] at h
        exact absurd h (by simp)
  | succ hi ih =>
    intro m h
    rw [find_down] at h
    by_cases h0 : hi + 1 < lo
    · rw [if_pos h0] at h
      exact absurd h (by simp)
    · rw [if_neg h0] at h
      by_cases hp : p (hi + 1)
      · rw [if_pos hp] at h
        have : m = hi + 1 := (Option.some_inj.mp h).symm
        subst this
        exact ⟨by omega, le_refl _, hp⟩
      · rw [if_neg hp] at h
        obtain ⟨a, b, c⟩ := ih m h
        exact ⟨a, by omega, c⟩

/-- If some point of the range satisfies the predicate, the scan hits. -/
theorem find_down_isSome (p : Nat → Bool) (lo : Nat) :
    ∀ hi j, lo ≤ j → j ≤ hi → p j = true → (find_down p lo hi).isSome = true := by
  intro hi
  induction hi with
  | zero =>
    intro j h1 h2 h3
    have hj : j = 0 := by omega
    subst hj
    rw [find_down, if_neg (by omega), if_pos h3]
    rfl
  | succ hi ih =>
    intro j h1 h2 h3
    rw [find_down, if_neg (by omega)]
    by_cases hp : p (hi + 1)
    · rw [if_pos hp]
      rfl
    · rw [if_neg hp]
      have hj : j ≤ hi := by
        rcases Nat.eq_or_lt_of_le h2 with h4 | h4
        · exact absurd (h4 ▸ h3) (by simpa using hp)
        · omega
      exact ih j h1 hj h3

/-- The downward scan returns the largest hit in the range. -/
theorem find_down_max (p : Nat → Bool) (lo : Nat) :
    ∀ hi m, find_down p lo hi = some m →
      ∀ j, m < j → j ≤ hi → p j = false := by
  intro hi
  induction hi with
  | zero =>
    intro m h j hj1 hj2
    omega
  | succ hi ih =>
    intro m h j hj1 hj2
    rw [find_down] at h
    by_cases h0 : hi + 1 < lo
    · rw [if_pos h0] at h
      exact absurd h (by simp)
    · rw [if_neg h0] at h
      by_cases hp : p (hi + 1)
      · rw [if_pos hp] at h
        have : m = hi + 1 := (Option.some_inj.mp h).symm
        omega
      · rw [if_neg hp] at h
        rcases Nat.eq_or_lt_of_le hj2 with h4 | h4
        · rw [h4]
          simpa using hp
        · exact ih m h j hj1 (by omega)

/-- The `loop` of `next_range_block` (`range_blocks.rs` lines 97-129).  The
already-checked `assert!(sub_block_sqrt > 1)` is carried as a hypothesis
(it also underlies the loop's termination).  `none` models a panic: the
in-loop `assert!(target_recursion_level <= max_recursion_level)` or the
`.expect(...)` on the alignment search (the latter is in fact unreachable).
`some none` / `some (some (index, count))` model the source's `None` /
`Some((index, count))` results. -/
def next_range_block_loop (data_len target_recursion_level sub_block_sqrt : Nat)
    (hB : 2 ≤ sub_block_sqrt) (fn_filter : Nat → Nat → Bool)
    (search_start_index max_recursion_level : Nat) : Option (Option (Nat × Nat)) :=
  if hmax : max_recursion_level < target_recursion_level then none
  else
    let next_aligned_index := next_multiple_of search_start_index
      (range_block_size target_recursion_level sub_block_sqrt)
    if hlen : data_len ≤ next_aligned_index then some none
    else
      match hfind : find_down
          (fun i => decide (next_aligned_index % range_block_size i sub_block_sqrt = 0))
          target_recursion_level max_recursion_level with
      | none => none
      | some mal =>
        let msize := range_block_size mal sub_block_sqrt
        if fn_filter next_aligned_index msize then
          if heq : mal = target_recursion_level then
            some (some (next_aligned_index, msize))
          else
            next_range_block_loop data_len target_recursion_level sub_block_sqrt hB
              fn_filter search_start_index (max_recursion_level - 1)
        else
          next_range_block_loop data_len target_recursion_level sub_block_sqrt hB
            fn_filter (next_aligned_index + msize) max_recursion_level
termination_by data_len - search_start_index + max_recursion_level
decreasing_by
  · obtain ⟨hlo, hhi, _⟩ := find_down_some _ _ _ _ hfind
    omega
  · have hs : 0 < range_block_size target_recursion_level sub_block_sqrt :=
      Nat.pos_pow_of_pos _ (by omega)
    have hm : 0 < range_block_size mal sub_block_sqrt :=
      Nat.pos_pow_of_pos _ (by omega)
    have hge := next_multiple_of_ge search_start_index
      (range_block_size target_recursion_level sub_block_sqrt) hs
    omega

/-- `next_range_block` (`range_blocks.rs` lines 78-130).  `none` models a
panic: `assert!(sub_block_sqrt > 1)` at entry, or a panic inside the loop. -/
def next_range_block (search_start_index data_len target_recursion_level
    max_recursion_level sub_block_sqrt : Nat)
    (fn_filter : Nat → Nat → Bool) : Option (Option (Nat × Nat)) :=
  if hB : 2 ≤ sub_block_sqrt then
    next_range_block_loop data_len target_recursion_level sub_block_sqrt hB
      fn_filter search_start_index max_recursion_level
  else none

/-- `next_complete_largest_range_block` (`range_blocks.rs` lines 184-208):
scan recursion levels from `max_recursion_level` down to 0 and return
`(index, size)` for the first level whose block size divides `index` and
fits before `limit_index`.  `none` models the `assert!(sub_block_sqrt > 1)`
panic; `some none` is the source's `None` (no level fits). -/
def next_complete_largest_range_block (index limit_index max_recursion_level
    sub_block_sqrt : Nat) : Option (Option (Nat × Nat)) :=
  if 2 ≤ sub_block_sqrt then
    some ((find_down
        (fun i => decide (index % range_block_size i sub_block_sqrt = 0) &&
          decide (index + range_block_size i sub_block_sqrt ≤ limit_index))
        0 max_recursion_level).map
      (fun i => (index, range_block_size i sub_block_sqrt)))
  else none

/-- Counterexample to C9 as stated: `get_cell_offset` does not abort when the
branch factor is ≤ 1 - with `index = 0` its loop body is never entered and it
returns `(0, 0)` normally. -/
theorem get_cell_offset_no_branch_factor_check :
    get_cell_offset 0 1 = some ⟨0, 0⟩ := by
  rw [get_cell_offset]
  norm_num

/-- C9 (amended): of the core operations taking the branch factor, exactly
`next_range_block` and `next_complete_largest_range_block` validate it
(`assert!(sub_block_sqrt > 1)`, a panic - modelled `none` - when it is ≤ 1);
`get_cell_offset` performs no such check and e.g. returns `(0, 0)` normally
for `index = 0, sub_block_sqrt = 1` (and for positive `index` it loops
forever or hits a division by zero instead of a controlled abort, see
`get_cell_offset`); `range_block_size` and `max_recursion_level` also
perform no check and return normally (the value shown for
`max_recursion_level` is the one of this model; the source's `f32` pipeline
there divides by `ln 1 = 0` and saturates, but in either reading it returns
a value rather than aborting). -/
theorem branch_factor_validation (B : Nat) (hB : B ≤ 1) :
    (∀ start data_len target maxl f,
      next_range_block start data_len target maxl B f = none) ∧
    (∀ index limit maxl,
      next_complete_largest_range_block index limit maxl B = none) ∧
    get_cell_offset 0 B = some ⟨0, 0⟩ ∧
    range_block_size 2 1 = 1 ∧
    max_recursion_level 0 1 = 0 := by
  refine ⟨?_, ?_, ?_, by decide, by decide⟩
  · intro start data_len target maxl f
    rw [next_range_block, dif_neg (by omega)]
  · intro index limit maxl
    rw [next_complete_largest_range_block, if_neg (by omega)]
  · rw [get_cell_offset, dif_neg (by omega), if_pos rfl]

/-- Witness for C9 (amended) at `B = 1`. -/
theorem branch_factor_validation_witness :
    next_range_block 0 10 0 1 1 (fun _ _ => true) = none ∧
    next_complete_largest_range_block 0 10 1 1 = none ∧
    get_cell_offset 0 1 = some ⟨0, 0⟩ :=
  ⟨(branch_factor_validation 1 (by decide)).1 0 10 0 1 (fun _ _ => true),
   (branch_factor_validation 1 (by decide)).2.1 0 10 1,
   (branch_factor_validation 1 (by decide)).2.2.1⟩

/-- With the always-true filter, the search loop returns the first
target-aligned index at or after the cursor as a target-sized block
(or `None` when that index falls at or past `data_len`). -/
theorem next_range_block_loop_true_filter (data_len target B : Nat) (hB : 2 ≤ B) :
    ∀ maxl start, target ≤ maxl →
      next_range_block_loop data_len target B hB (fun _ _ => true) start maxl =
        if data_len ≤ next_multiple_of start (range_block_size target B) then some none
        else some (some (next_multiple_of start (range_block_size target B),
          range_block_size target B)) := by
  intro maxl
  induction maxl using Nat.strong_induction_on with
  | _ maxl ih =>
    intro start htm
    rw [next_range_block_loop, dif_neg (by omega : ¬maxl < target)]
    simp only
    by_cases hlen : data_len ≤ next_multiple_of start (range_block_size target B)
    · rw [dif_pos hlen, if_pos hlen]
    · rw [dif_neg hlen, if_neg hlen]
      split
      · next hfd =>
          exfalso
          have hsome := find_down_isSome
            (fun i => decide (next_multiple_of start (range_block_size target B) %
              range_block_size i B = 0))
            target maxl target (le_refl _) htm (by simp [next_multiple_of_mod])
          rw [hfd] at hsome
          simp at hsome
      · next mal hfd =>
          obtain ⟨hlo, hhi, hp⟩ := find_down_some _ _ _ _ hfd
          simp only [if_true]
          by_cases heq : mal = target
          · rw [dif_pos heq, heq]
          · rw [dif_neg heq]
            have hmal : target < mal := lt_of_le_of_ne hlo (Ne.symm heq)
            rw [ih (maxl - 1) (by omega) start (by omega), if_neg hlen]

/-- A block returned by the search loop starts at or after the cursor, starts
before `data_len`, and has the target-level size. -/
theorem next_range_block_loop_some (data_len target B : Nat) (hB : 2 ≤ B)
    (f : Nat → Nat → Bool) :
    ∀ n maxl start i c, data_len - start + maxl ≤ n →
      next_range_block_loop data_len target B hB f start maxl = some (some (i, c)) →
      start ≤ i ∧ i < data_len ∧ c = range_block_size target B := by
  have hspos : 0 < range_block_size target B := Nat.pos_pow_of_pos _ (by omega)
  intro n
  induction n with
  | zero =>
    intro maxl start i c hn h
    rw [next_range_block_loop] at h
    by_cases hmax : maxl < target
    · rw [dif_pos hmax] at h
      exact absurd h (by simp)
    · rw [dif_neg hmax] at h
      simp only at h
      have hge := next_multiple_of_ge start (range_block_size target B) hspos
      have hlen : data_len ≤ next_multiple_of start (range_block_size target B) := by omega
      rw [dif_pos hlen] at h
      exact absurd h (by simp)
  | succ n ih =>
    intro maxl start i c hn h
    rw [next_range_block_loop] at h
    by_cases hmax : maxl < target
    · rw [dif_pos hmax] at h
      exact absurd h (by simp)
    · rw [dif_neg hmax] at h
      simp only at h
      have hge := next_multiple_of_ge start (range_block_size target B) hspos
      by_cases hlen : data_len ≤ next_multiple_of start (range_block_size target B)
      · rw [dif_pos hlen] at h
        exact absurd h (by simp)
      · rw [dif_neg hlen] at h
        revert h
        split
        · intro h
          exact absurd h (by simp)
        · next mal hfd =>
            intro h
            obtain ⟨hlo, hhi, hp⟩ := find_down_some _ _ _ _ hfd
            have hmpos : 0 < range_block_size mal B := Nat.pos_pow_of_pos _ (by omega)
            by_cases hfil : f (next_multiple_of start (range_block_size target B))
                (range_block_size mal B) = true
            · rw [if_pos hfil] at h
              by_cases heq : mal = target
              · rw [dif_pos heq] at h
                have h2 := Option.some_inj.mp (Option.some_inj.mp h)
                have h3 : next_multiple_of start (range_block_size target B) = i :=
                  congrArg Prod.fst h2
                have h4 : range_block_size mal B = c := congrArg Prod.snd h2
                refine ⟨by omega, by omega, by rw [← h4, heq]⟩
              · rw [dif_neg heq] at h
                have hmal : target < mal := lt_of_le_of_ne hlo (Ne.symm heq)
                exact ih (maxl - 1) start i c (by omega) h
            · rw [if_neg hfil] at h
              obtain ⟨h1, h2, h3⟩ := ih maxl
                (next_multiple_of start (range_block_size target B) + range_block_size mal B)
                i c (by omega) h
              exact ⟨by omega, h2, h3⟩

/-- Wrapper form of `next_range_block_loop_some` for `next_range_block`. -/
theorem next_range_block_some (start data_len target maxl B : Nat)
    (f : Nat → Nat → Bool) (i c : Nat)
    (h : next_range_block start data_len target maxl B f = some (some (i, c))) :
    2 ≤ B ∧ start ≤ i ∧ i < data_len ∧ c = range_block_size target B := by
  rw [next_range_block] at h
  by_cases hB : 2 ≤ B
  · rw [dif_pos hB] at h
    obtain ⟨h1, h2, h3⟩ := next_range_block_loop_some data_len target B hB f
      (data_len - start + maxl) maxl start i c (le_refl _) h
    exact ⟨hB, h1, h2, h3⟩
  · rw [dif_neg hB] at h
    exact absurd h (by simp)

/-- `RangeBlockIterator` (`range_blocks.rs` lines 163-180) run to exhaustion,
collecting all produced `(index, count)` pairs in order.  After each returned
block the cursor becomes `index + count`, exactly as in the source's `next`.
`none` models a panic inside `next_range_block`.  Termination: a returned
block starts at or after the cursor and before `data_len` and has positive
size (`next_range_block_some`), so `data_len - cursor` decreases. -/
def range_block_iterator_list (data_len target maxl B : Nat)
    (f : Nat → Nat → Bool) (cursor : Nat) : Option (List (Nat × Nat)) :=
  match h : next_range_block cursor data_len target maxl B f with
  | none => none
  | some none => some []
  | some (some (i, c)) =>
    match range_block_iterator_list data_len target maxl B f (i + c) with
    | none => none
    | some rest => some ((i, c) :: rest)
termination_by data_len - cursor
decreasing_by
  obtain ⟨hB, h1, h2, h3⟩ := next_range_block_some _ _ _ _ _ _ _ _ h
  have : 0 < c := by
    rw [h3]
    exact Nat.pos_pow_of_pos _ (by omega)
  omega

/-- Unfold: the iterator stops when the search reports exhaustion. -/
theorem range_block_iterator_list_nil (data_len target maxl B : Nat)
    (f : Nat → Nat → Bool) (cursor : Nat)
    (h : next_range_block cursor data_len target maxl B f = some none) :
    range_block_iterator_list data_len target maxl B f cursor = some [] := by
  rw [range_block_iterator_list]
  split
  · next h1 => rw [h1] at h; exact absurd h (by simp)
  · rfl
  · next i c h1 => rw [h1] at h; simp at h

/-- Unfold: the iterator conses a returned block and advances the cursor. -/
theorem range_block_iterator_list_cons (data_len target maxl B : Nat)
    (f : Nat → Nat → Bool) (cursor i c : Nat)
    (h : next_range_block cursor data_len target maxl B f = some (some (i, c))) :
    range_block_iterator_list data_len target maxl B f cursor =
      (range_block_iterator_list data_len target maxl B f (i + c)).map
        (fun rest => (i, c) :: rest) := by
  rw [range_block_iterator_list]
  split
  · next h1 => rw [h1] at h; exact absurd h (by simp)
  · next h1 => rw [h1] at h; simp at h
  · next i' c' h1 =>
      rw [h1] at h
      have h2 := Option.some_inj.mp (Option.some_inj.mp h)
      have h3 : i' = i := congrArg Prod.fst h2
      have h4 : c' = c := congrArg Prod.snd h2
      subst h3
      subst h4
      cases range_block_iterator_list data_len target maxl B f (i' + c') with
      | none => rfl
      | some rest => rfl

/-- Proof device: the expected tiling with blocks of size `s`, starting at
block number `k`, stopping at the first block whose offset reaches `N`. -/
def aligned_blocks_from (N s : Nat) (k : Nat) : List (Nat × Nat) :=
  if h : N ≤ k * s ∨ s = 0 then []
  else
    have hstep : (k + 1) * s = k * s + s := by ring
    have hlt : N - (k + 1) * s < N - k * s := by
      push_neg at h
      omega
    (k * s, s) :: aligned_blocks_from N s (k + 1)
termination_by N - k * s

/-- With the always-true filter the iterator, started on an aligned cursor,
produces exactly the expected tiling. -/
theorem range_block_iterator_list_true_aligned (N L M B : Nat) (hB : 2 ≤ B)
    (hLM : L ≤ M) :
    ∀ n k, N - k * range_block_size L B ≤ n →
      range_block_iterator_list N L M B (fun _ _ => true)
          (k * range_block_size L B) =
        some (aligned_blocks_from N (range_block_size L B) k) := by
  have hspos : 0 < range_block_size L B := Nat.pos_pow_of_pos _ (by omega)
  have hclosed : ∀ k : Nat,
      next_range_block (k * range_block_size L B) N L M B (fun _ _ => true) =
        if N ≤ k * range_block_size L B then some none
        else some (some (k * range_block_size L B, range_block_size L B)) := by
    intro k
    rw [next_range_block, dif_pos hB,
      next_range_block_loop_true_filter N L B hB M (k * range_block_size L B) hLM,
      next_multiple_of_eq (k * range_block_size L B) (range_block_size L B) hspos
        (Nat.mul_mod_left k _)]
  intro n
  induction n with
  | zero =>
    intro k hn
    have hNk : N ≤ k * range_block_size L B :=
      Nat.sub_eq_zero_iff_le.mp (Nat.le_zero.mp hn)
    rw [range_block_iterator_list_nil N L M B _ _ (by rw [hclosed k, if_pos hNk])]
    rw [aligned_blocks_from, dif_pos (Or.inl hNk)]
  | succ n ih =>
    intro k hn
    by_cases hNk : N ≤ k * range_block_size L B
    · rw [range_block_iterator_list_nil N L M B _ _ (by rw [hclosed k, if_pos hNk])]
      rw [aligned_blocks_from, dif_pos (Or.inl hNk)]
    · rw [range_block_iterator_list_cons N L M B _ _
        (k * range_block_size L B) (range_block_size L B)
        (by rw [hclosed k, if_neg hNk])]
      rw [show k * range_block_size L B + range_block_size L B =
        (k + 1) * range_block_size L B by ring]
      have h2 : N - (k + 1) * range_block_size L B ≤ n := by
        have hstep : (k + 1) * range_block_size L B =
          k * range_block_size L B + range_block_size L B := by ring
        rw [hstep]
        revert hn
        generalize k * range_block_size L B = t
        intro hn
        revert hspos
        generalize range_block_size L B = s
        intro hspos
        omega
      rw [ih (k + 1) h2]
      conv_rhs => rw [aligned_blocks_from]
      rw [dif_neg (by push_neg; exact ⟨Nat.not_le.mp hNk, by omega⟩)]
      rfl

/-- Ceiling-division bound: `⌈N / s⌉ ≤ k` iff `N ≤ k·s`. -/
theorem ceil_div_le_iff (N s k : Nat) (hs : 0 < s) :
    (N + s - 1) / s ≤ k ↔ N ≤ k * s := by
  rw [Nat.div_le_iff_le_mul_add_pred hs, Nat.mul_comm s k]
  generalize k * s = X
  omega

/-- The expected tiling in explicit form: block numbers `k, k+1, ...` up to
`⌈N / s⌉ - 1`. -/
theorem aligned_blocks_from_eq (N s : Nat) (hs : 0 < s) :
    ∀ n k, N - k * s ≤ n →
      aligned_blocks_from N s k =
        (List.range' k ((N + s - 1) / s - k)).map (fun j => (j * s, s)) := by
  intro n
  induction n with
  | zero =>
    intro k hn
    have hNk : N ≤ k * s := Nat.sub_eq_zero_iff_le.mp (Nat.le_zero.mp hn)
    rw [aligned_blocks_from, dif_pos (Or.inl hNk)]
    have hceil : (N + s - 1) / s ≤ k := (ceil_div_le_iff N s k hs).mpr hNk
    rw [Nat.sub_eq_zero_of_le hceil]
    rfl
  | succ n ih =>
    intro k hn
    by_cases hNk : N ≤ k * s
    · rw [aligned_blocks_from, dif_pos (Or.inl hNk)]
      have hceil : (N + s - 1) / s ≤ k := (ceil_div_le_iff N s k hs).mpr hNk
      rw [Nat.sub_eq_zero_of_le hceil]
      rfl
    · rw [aligned_blocks_from, dif_neg (by push_neg; exact ⟨Nat.not_le.mp hNk, by omega⟩)]
      have h2 : N - (k + 1) * s ≤ n := by
        have hstep : (k + 1) * s = k * s + s := by ring
        rw [hstep]
        revert hn
        generalize k * s = t
        intro hn
        omega
      rw [ih (k + 1) h2]
      have hgt : k < (N + s - 1) / s := by
        by_contra hc
        exact hNk ((ceil_div_le_iff N s k hs).mp (by omega))
      rw [show (N + s - 1) / s - k = ((N + s - 1) / s - (k + 1)) + 1 by omega]
      rw [List.range'_succ]
      rfl

/-- C5: for every data length `N`, branch factor `B > 1`, level `L` and
ceiling `M ≥ L`, iterating `RangeBlockIterator(0, N, L, M, B)` with the
always-true filter yields exactly the aligned blocks
`(0, s), (s, s), (2s, s), ...` with `s = B^(2L)`, one for every offset
`k·s < N` in increasing order (the last block may extend past `N`), and
nothing else. -/
theorem range_block_iterator_exact_tiling (N L M B : Nat) (hB : 1 < B)
    (hLM : L ≤ M) :
    range_block_iterator_list N L M B (fun _ _ => true) 0 =
      some ((List.range ((N + range_block_size L B - 1) / range_block_size L B)).map
        (fun k => (k * range_block_size L B, range_block_size L B))) := by
  have hB2 : 2 ≤ B := hB
  have hspos : 0 < range_block_size L B := Nat.pos_pow_of_pos _ (by omega)
  have h0 := range_block_iterator_list_true_aligned N L M B hB2 hLM N 0
    (by rw [Nat.zero_mul, Nat.sub_zero])
  rw [Nat.zero_mul] at h0
  rw [h0, aligned_blocks_from_eq N (range_block_size L B) hspos N 0
    (by rw [Nat.zero_mul, Nat.sub_zero]), Nat.sub_zero, List.range_eq_range']

/-- Witness for C5 at `N = 5`, `L = 0`, `M = 1`, `B = 2`. -/
theorem range_block_iterator_exact_tiling_witness :
    range_block_iterator_list 5 0 1 2 (fun _ _ => true) 0 =
      some [(0, 1), (1, 1), (2, 1), (3, 1), (4, 1)] :=
  (range_block_iterator_exact_tiling 5 0 1 2 (by decide) (by decide)).trans (by decide)

/-- The clamped slice `data[index .. min(len, index+count)]` equals the
unclamped `take count` of the dropped list (`take` saturates at the length). -/
theorem clamp_take_eq {α : Type} (data : List α) (index count : Nat) :
    (data.drop index).take (min data.length (index + count) - index) =
      (data.drop index).take count := by
  have hlen : (data.drop index).length = data.length - index := List.length_drop _ _
  by_cases h : index < data.length
  · by_cases hc : count ≤ data.length - index
    · rw [show min data.length (index + count) - index = count by omega]
    · rw [show min data.length (index + count) - index = data.length - index by omega]
      rw [List.take_of_length_le (le_of_eq hlen), List.take_of_length_le (by omega)]
  · have hnil : data.drop index = [] := List.drop_eq_nil_of_le (by omega)
    rw [hnil]
    simp

/-- `RangeBlockSum::block_sum` (`range_blocks.rs` lines 269-279): sum of the
bytes of `data[index .. min(len, index + count)]`, `0` when `index` is at or
past the end.  (The `usize::MAX` fallbacks of the narrowing conversions are
unreachable for `Nat`-modelled values.) -/
def block_sum (data : List Nat) (index count : Nat) : Nat :=
  if index < data.length then
    ((data.drop index).take (min data.length (index + count) - index)).sum
  else 0

/-- `RangeBlockSum::value_from_sub_blocks` (`range_blocks.rs` lines 287-289):
plain sum of the child values. -/
def sum_value_from_sub_blocks (value : List Nat) : Nat :=
  value.sum

/-- `block_sum` in unclamped form. -/
theorem block_sum_eq (data : List Nat) (index count : Nat) :
    block_sum data index count = ((data.drop index).take count).sum := by
  unfold block_sum
  by_cases h : index < data.length
  · rw [if_pos h, clamp_take_eq]
  · rw [if_neg h, List.drop_eq_nil_of_le (by omega)]
    simp

/-- `block_sum` is additive over adjacent ranges (with all clamping). -/
theorem block_sum_split (data : List Nat) (o a b : Nat) :
    block_sum data o (a + b) = block_sum data o a + block_sum data (o + a) b := by
  rw [block_sum_eq, block_sum_eq, block_sum_eq, List.take_add, List.sum_append]
  congr 2
  rw [List.drop_drop]

/-- Summing `n` consecutive size-`c` sub-blocks gives the sum over `n·c`. -/
theorem block_sum_children (data : List Nat) (o c : Nat) :
    ∀ n, ((List.range n).map (fun k => block_sum data (o + k * c) c)).sum =
      block_sum data o (n * c) := by
  intro n
  induction n with
  | zero =>
    rw [Nat.zero_mul, block_sum_eq]
    simp
  | succ n ih =>
    rw [List.range_succ, List.map_append, List.sum_append]
    simp only [List.map_cons, List.map_nil, List.sum_cons, List.sum_nil]
    rw [ih, show (n + 1) * c = n * c + c by ring, block_sum_split data o (n * c) c]
    omega

/-- `RangeBlockColorSum::block_color_sum` (`range_blocks.rs` lines 307-325):
componentwise sum of `color_fn` over the clamped slice. -/
def block_color_sum (data : List Nat) (color_fn : Nat → Nat × Nat × Nat)
    (index count : Nat) : Nat × Nat × Nat :=
  if index < data.length then
    (((data.drop index).take (min data.length (index + count) - index)).map
        color_fn).foldl
      (fun s t => (s.1 + t.1, s.2.1 + t.2.1, s.2.2 + t.2.2)) (0, 0, 0)
  else (0, 0, 0)

/-- `RangeBlockColorSum::value_from_sub_blocks` (`range_blocks.rs` lines
332-338): componentwise fold of the child triples. -/
def color_value_from_sub_blocks (value : List (Nat × Nat × Nat)) :
    Nat × Nat × Nat :=
  value.foldl (fun s t => (s.1 + t.1, s.2.1 + t.2.1, s.2.2 + t.2.2)) (0, 0, 0)

/-- The componentwise fold computes the triple of component sums. -/
theorem fold_triple_sum (l : List (Nat × Nat × Nat)) :
    ∀ s, l.foldl (fun s t => (s.1 + t.1, s.2.1 + t.2.1, s.2.2 + t.2.2)) s =
      (s.1 + (l.map (fun t => t.1)).sum, s.2.1 + (l.map (fun t => t.2.1)).sum,
       s.2.2 + (l.map (fun t => t.2.2)).sum) := by
  induction l with
  | nil =>
    intro s
    simp
  | cons hd tl ih =>
    intro s
    rw [List.foldl_cons, ih]
    simp only [List.map_cons, List.sum_cons]
    refine Prod.ext ?_ (Prod.ext ?_ ?_) <;> simp <;> ring

/-- `block_color_sum` is the triple of `block_sum`s of the component images. -/
theorem block_color_sum_eq (data : List Nat) (color_fn : Nat → Nat × Nat × Nat)
    (index count : Nat) :
    block_color_sum data color_fn index count =
      (block_sum (data.map (fun b => (color_fn b).1)) index count,
       block_sum (data.map (fun b => (color_fn b).2.1)) index count,
       block_sum (data.map (fun b => (color_fn b).2.2)) index count) := by
  unfold block_color_sum
  rw [block_sum_eq, block_sum_eq, block_sum_eq]
  by_cases h : index < data.length
  · rw [if_pos h, clamp_take_eq, fold_triple_sum]
    simp only [Nat.zero_add]
    rw [← List.map_drop, ← List.map_take, ← List.map_drop, ← List.map_take,
      ← List.map_drop, ← List.map_take]
    refine Prod.ext ?_ (Prod.ext ?_ ?_) <;> simp only [List.map_map] <;> rfl
  · rw [if_neg h]
    have hlen : data.length ≤ index := by omega
    rw [List.drop_eq_nil_of_le (by simpa using hlen),
      List.drop_eq_nil_of_le (by simpa using hlen),
      List.drop_eq_nil_of_le (by simpa using hlen)]
    simp

/-- `zip` commutes with `drop` (both sides dropped equally). -/
theorem zip_drop_eq {α β : Type} :
    ∀ (l1 : List α) (l2 : List β) (n : Nat),
      (l1.drop n).zip (l2.drop n) = (l1.zip l2).drop n := by
  intro l1
  induction l1 with
  | nil =>
    intro l2 n
    simp
  | cons a t ih =>
    intro l2 n
    cases l2 with
    | nil => simp
    | cons b t2 =>
      cases n with
      | zero => simp
      | succ n =>
        simp only [List.drop_succ_cons, List.zip_cons_cons]
        exact ih t2 n

/-- `zip` commutes with `take` (both sides taken equally). -/
theorem zip_take_eq {α β : Type} :
    ∀ (l1 : List α) (l2 : List β) (n : Nat),
      (l1.take n).zip (l2.take n) = (l1.zip l2).take n := by
  intro l1
  induction l1 with
  | nil =>
    intro l2 n
    simp
  | cons a t ih =>
    intro l2 n
    cases l2 with
    | nil => simp
    | cons b t2 =>
      cases n with
      | zero => simp
      | succ n =>
        simp only [List.take_succ_cons, List.zip_cons_cons]
        rw [ih t2 n]

/-- A filtered length is the sum of the 0/1 indicator image. -/
theorem filter_length_eq_indicator_sum {α : Type} (p : α → Bool) :
    ∀ l : List α, (l.filter p).length =
      (l.map (fun x => if p x then 1 else 0)).sum := by
  intro l
  induction l with
  | nil => simp
  | cons a t ih =>
    by_cases h : p a
    · rw [List.filter_cons_of_pos h]
      simp only [List.length_cons, List.map_cons, List.sum_cons, if_pos h]
      omega
    · rw [List.filter_cons_of_neg (by simpa using h)]
      simp only [List.map_cons, List.sum_cons, if_neg h]
      omega

/-- `RangeBlockDiff::block_diff` (`range_blocks.rs` lines 353-373): the number
of positions with differing bytes in the common clamped slice of the two
buffers; `none` when `index` is at or past the end of either buffer. -/
def block_diff (data0 data1 : List Nat) (index count : Nat) : Option Nat :=
  let limit0 := min data0.length (index + count)
  let limit1 := min data1.length (index + count)
  let limit := min limit0 limit1
  if index < min data0.length data1.length then
    some ((((data0.drop index).take (limit - index)).zip
        ((data1.drop index).take (limit - index))).filter
      (fun p => decide ¬(p.1 = p.2))).length
  else none

/-- `RangeBlockDiff::value_from_sub_blocks` (`range_blocks.rs` lines
381-383): sum of the present child counts, always wrapped in `Some`
(absent children contribute nothing - and do not make the result `None`). -/
def diff_value_from_sub_blocks (value : List (Option Nat)) : Option Nat :=
  some (value.filterMap id).sum

/-- `block_diff` as a `block_sum` of the 0/1 indicator of the zipped buffers. -/
theorem block_diff_eq (data0 data1 : List Nat) (index count : Nat) :
    block_diff data0 data1 index count =
      if index < (data0.zip data1).length then
        some (block_sum ((data0.zip data1).map
          (fun p => if decide ¬(p.1 = p.2) then 1 else 0)) index count)
      else none := by
  unfold block_diff
  simp only
  have hlen : (data0.zip data1).length = min data0.length data1.length :=
    List.length_zip data0 data1
  by_cases h : index < min data0.length data1.length
  · rw [if_pos h, if_pos (by omega)]
    have hlim : min (min data0.length (index + count))
        (min data1.length (index + count)) =
        min (data0.zip data1).length (index + count) := by omega
    rw [hlim]
    rw [zip_take_eq, zip_drop_eq, clamp_take_eq]
    rw [filter_length_eq_indicator_sum]
    rw [block_sum_eq, ← List.map_drop, ← List.map_take]
  · rw [if_neg h, if_neg (by omega)]

/-- Splitting a parent block size into `B²` children sizes. -/
theorem range_block_size_succ (B L : Nat) (hL : 1 ≤ L) :
    range_block_size L B = B * B * range_block_size (L - 1) B := by
  unfold range_block_size
  rw [show B * B = B ^ 2 by ring, ← pow_add]
  congr 1
  omega

/-- Counterexample to C1 as stated: for `RangeBlockDiff`, combining the child
values of the aligned block `(4, 4)` (with `B = 2`, `L = 1`), which lies
wholly past the end of both one-byte buffers `[7]`, gives `Some 0`, while the
direct value is `None`. -/
theorem diff_value_from_sub_blocks_mismatch :
    diff_value_from_sub_blocks ((List.range (2 * 2)).map
      (fun k => block_diff [7] [7] (4 + k * range_block_size 0 2)
        (range_block_size 0 2))) ≠
    block_diff [7] [7] 4 (range_block_size 1 2) := by decide

/-- C1 (amended): for every aligned block `(offset, B^(2L))` with `B > 1`,
`L ≥ 1` and `offset` a multiple of the block length,
`value_from_sub_blocks` applied to the `B²` child values equals `value`
computed directly on the full block - unconditionally for `RangeBlockSum`
and `RangeBlockColorSum`, and for `RangeBlockDiff` whenever the block's
offset lies inside both buffers (`offset < min len0 len1`); when the offset
is past the end of either buffer the combined value is `Some 0` while the
direct value is `None` (see the counterexample). -/
theorem value_from_sub_blocks_consistency (data data0 data1 : List Nat)
    (color_fn : Nat → Nat × Nat × Nat) (B L offset : Nat) (hB : 1 < B)
    (hL : 1 ≤ L) (halign : range_block_size L B ∣ offset) :
    (sum_value_from_sub_blocks ((List.range (B * B)).map
        (fun k => block_sum data (offset + k * range_block_size (L - 1) B)
          (range_block_size (L - 1) B))) =
      block_sum data offset (range_block_size L B)) ∧
    (color_value_from_sub_blocks ((List.range (B * B)).map
        (fun k => block_color_sum data color_fn
          (offset + k * range_block_size (L - 1) B)
          (range_block_size (L - 1) B))) =
      block_color_sum data color_fn offset (range_block_size L B)) ∧
    (offset < min data0.length data1.length →
      diff_value_from_sub_blocks ((List.range (B * B)).map
        (fun k => block_diff data0 data1
          (offset + k * range_block_size (L - 1) B)
          (range_block_size (L - 1) B))) =
      block_diff data0 data1 offset (range_block_size L B)) := by
  have hsize := range_block_size_succ B L hL
  refine ⟨?_, ?_, ?_⟩
  · unfold sum_value_from_sub_blocks
    rw [block_sum_children data offset (range_block_size (L - 1) B) (B * B), hsize]
  · rw [color_value_from_sub_blocks, fold_triple_sum]
    simp only [List.map_map, Function.comp_def, block_color_sum_eq, Nat.zero_add]
    rw [block_sum_children, block_sum_children, block_sum_children, hsize]
  · intro hmin
    have hzlen : (data0.zip data1).length = min data0.length data1.length :=
      List.length_zip data0 data1
    have hDlen : offset < (data0.zip data1).length := by omega
    have hchild : ∀ ks : List Nat,
        ((ks.map (fun k => block_diff data0 data1
          (offset + k * range_block_size (L - 1) B)
          (range_block_size (L - 1) B))).filterMap id).sum =
        (ks.map (fun k => block_sum ((data0.zip data1).map
          (fun p => if decide ¬(p.1 = p.2) then 1 else 0))
          (offset + k * range_block_size (L - 1) B)
          (range_block_size (L - 1) B))).sum := by
      intro ks
      induction ks with
      | nil => simp
      | cons k t ih =>
        simp only [List.map_cons, List.sum_cons]
        by_cases hk : offset + k * range_block_size (L - 1) B <
            (data0.zip data1).length
        · rw [block_diff_eq, if_pos hk]
          simp only [List.filterMap_cons, id]
          rw [List.sum_cons, ih]
        · rw [block_diff_eq, if_neg hk]
          simp only [List.filterMap_cons, id]
          rw [ih]
          have hz : block_sum ((data0.zip data1).map
              (fun p => if decide ¬(p.1 = p.2) then 1 else 0))
              (offset + k * range_block_size (L - 1) B)
              (range_block_size (L - 1) B) = 0 := by
            rw [block_sum, if_neg (by rw [List.length_map]; omega)]
          rw [hz]
          omega
    rw [diff_value_from_sub_blocks, hchild (List.range (B * B))]
    rw [block_sum_children, block_diff_eq, if_pos hDlen, hsize]

/-- Witness for C1 (amended) at `B = 2`, `L = 1`, `offset = 0`, buffers
`[1, 2, 3]`, `[1, 2]` / `[1, 5]`, color function `b ↦ (b, 2b, b+1)`. -/
theorem value_from_sub_blocks_consistency_witness :
    (sum_value_from_sub_blocks ((List.range (2 * 2)).map
        (fun k => block_sum [1, 2, 3] (0 + k * range_block_size 0 2)
          (range_block_size 0 2))) =
      block_sum [1, 2, 3] 0 (range_block_size 1 2)) ∧
    (color_value_from_sub_blocks ((List.range (2 * 2)).map
        (fun k => block_color_sum [1, 2, 3] (fun b => (b, 2 * b, b + 1))
          (0 + k * range_block_size 0 2) (range_block_size 0 2))) =
      block_color_sum [1, 2, 3] (fun b => (b, 2 * b, b + 1)) 0
        (range_block_size 1 2)) ∧
    (diff_value_from_sub_blocks ((List.range (2 * 2)).map
        (fun k => block_diff [1, 2] [1, 5] (0 + k * range_block_size 0 2)
          (range_block_size 0 2))) =
      block_diff [1, 2] [1, 5] 0 (range_block_size 1 2)) := by
  have h := value_from_sub_blocks_consistency [1, 2, 3] [1, 2] [1, 5]
    (fun b => (b, 2 * b, b + 1)) 2 1 0 (by decide) (by decide) (by decide)
  exact ⟨h.1, h.2.1, h.2.2 (by decide)⟩

/-- Assoc-list model of `HashMap::get` (`RangeBlockCache::get` semantics). -/
def assoc_find {T : Type} (values : List ((Nat × Nat) × T)) (key : Nat × Nat) :
    Option T :=
  (values.find? (fun e => decide (e.1 = key))).map (fun e => e.2)

/-- Assoc-list model of `HashMap::insert`: overwrite any entry with the key. -/
def assoc_insert {T : Type} (values : List ((Nat × Nat) × T)) (key : Nat × Nat)
    (v : T) : List ((Nat × Nat) × T) :=
  values.filter (fun e => decide ¬(e.1 = key)) ++ [(key, v)]

/-- `RangeBlockCache::generate` (`range_blocks.rs` lines 408-461), for the
aggregator described by `value` / `value_from_sub_blocks` over values of
type `T`.  The `HashMap` is modelled as an association list with overwriting
insert; `none` models a panic inside an iteration; the logging calls and the
`cache_misses` counter do not affect the result and are omitted. -/
def cache_generate {T : Type} (value : Nat → Nat → T)
    (value_from_sub_blocks : List T → T) (data_len sub_block_sqrt : Nat) :
    Option (List ((Nat × Nat) × T)) :=
  let maxL := max_recursion_level data_len sub_block_sqrt
  let minL := 2
  (List.range' minL (maxL + 1 - minL)).foldlM
    (fun values i =>
      match range_block_iterator_list data_len i i sub_block_sqrt
          (fun _ _ => true) 0 with
      | none => none
      | some blocks =>
        blocks.foldlM (fun values ic =>
          if i ≤ minL then
            some (assoc_insert values ic (value ic.1 ic.2))
          else
            match range_block_iterator_list (ic.1 + ic.2) (i - 1) (i - 1)
                sub_block_sqrt (fun _ _ => true) ic.1 with
            | none => none
            | some subs =>
              some (assoc_insert values ic (value_from_sub_blocks
                (subs.map (fun sc =>
                  match assoc_find values sc with
                  | some v => v
                  | none => value sc.1 sc.2))))) values)
    []

/-- Counterexample to C3 as stated: `max_recursion_level(256, 4)` is not 4
(it is 2: `16² = 256 ≥ 256` already). -/
theorem max_recursion_level_256_4_ne_4 : max_recursion_level 256 4 ≠ 4 := by
  decide

set_option maxRecDepth 40000 in
/-- C3 (amended): for the 256-byte buffer of values 0..255 with branch factor
4: `max_recursion_level(256, 4) = 2` (not 4 as the claim says),
`block_sum(0, 256) = 32640`, the generated sum cache holds exactly the
whole-buffer entry `((0, 256), 32640)`, and hence at every cached level
(only level 2 is cached: the hardcoded minimum level is 2 and the maximum is
2) the cached block sums total `32640`. -/
theorem sum_cache_scenario :
    max_recursion_level 256 4 = 2 ∧
    block_sum (List.range 256) 0 256 = 32640 ∧
    cache_generate (fun i c => block_sum (List.range 256) i c)
      sum_value_from_sub_blocks 256 4 = some [((0, 256), 32640)] ∧
    (cache_generate (fun i c => block_sum (List.range 256) i c)
        sum_value_from_sub_blocks 256 4).map
      (fun values => ((values.filter
        (fun e => decide (e.1.2 = range_block_size 2 4))).map
        (fun e => e.2)).sum) = some 32640 := by
  have hiter : range_block_iterator_list 256 2 2 4 (fun _ _ => true) 0 =
      some [(0, 256)] := by
    rw [range_block_iterator_exact_tiling 256 2 2 4 (by decide) (le_refl 2)]
    decide
  have hm : max_recursion_level 256 4 = 2 := by decide
  have hc : cache_generate (fun i c => block_sum (List.range 256) i c)
      sum_value_from_sub_blocks 256 4 = some [((0, 256), 32640)] := by
    unfold cache_generate
    rw [hm]
    simp only [List.foldlM_cons, List.foldlM_nil, show (2 + 1 - 2 : Nat) = 1 from rfl,
      show List.range' 2 1 = [2] from rfl]
    rw [hiter]
    decide
  exact ⟨hm, by decide, hc, by rw [hc]; decide⟩

/-- A successful `next_complete_largest_range_block` result characterized:
the block starts at `index`, has the size of some level `k ≤ maxl` that
divides `index` and fits before `limit`, and no higher level both divides
and fits. -/
theorem next_complete_largest_some_spec (index limit maxl B i c : Nat)
    (h : next_complete_largest_range_block index limit maxl B =
      some (some (i, c))) :
    2 ≤ B ∧ i = index ∧ ∃ k, k ≤ maxl ∧ c = range_block_size k B ∧
      range_block_size k B ∣ index ∧ index + range_block_size k B ≤ limit ∧
      ∀ j, k < j → j ≤ maxl → ¬(range_block_size j B ∣ index ∧
        index + range_block_size j B ≤ limit) := by
  rw [next_complete_largest_range_block] at h
  by_cases hB : 2 ≤ B
  · rw [if_pos hB] at h
    have h1 := Option.some_inj.mp h
    obtain ⟨lv, hfd, hf⟩ := Option.map_eq_some'.mp h1
    obtain ⟨_, hhi, hp⟩ := find_down_some _ _ _ _ hfd
    have hi : i = index := (congrArg Prod.fst hf).symm
    have hc : c = range_block_size lv B := (congrArg Prod.snd hf).symm
    have hp' : index % range_block_size lv B = 0 ∧
        index + range_block_size lv B ≤ limit := by
      simpa only [Bool.and_eq_true, decide_eq_true_eq] using hp
    refine ⟨hB, hi, lv, hhi, hc, Nat.dvd_of_mod_eq_zero hp'.1, hp'.2, ?_⟩
    intro j hj1 hj2 hcontra
    have hfalse := find_down_max _ _ _ _ hfd j hj1 hj2
    have hmod : index % range_block_size j B = 0 := by
      obtain ⟨q, hq⟩ := hcontra.1
      rw [hq]
      exact Nat.mul_mod_right _ _
    rw [hmod] at hfalse
    simp [hcontra.2] at hfalse
  · rw [if_neg hB] at h
    exact absurd h (by simp)

/-- When `index < limit` the search always finds a block (level 0 fits). -/
theorem next_complete_largest_isSome (index limit maxl B : Nat) (hB : 2 ≤ B)
    (h : index < limit) :
    ∃ c, next_complete_largest_range_block index limit maxl B =
      some (some (index, c)) := by
  rw [next_complete_largest_range_block, if_pos hB]
  have hsome := find_down_isSome
    (fun i => decide (index % range_block_size i B = 0) &&
      decide (index + range_block_size i B ≤ limit)) 0 maxl 0
    (Nat.zero_le _) (Nat.zero_le _) (by
      simp only [Bool.and_eq_true, decide_eq_true_eq]
      refine ⟨?_, ?_⟩
      · simp [range_block_size, Nat.mod_one]
      · simp only [range_block_size, Nat.mul_zero, pow_zero]
        omega)
  obtain ⟨lv, hlv⟩ := Option.isSome_iff_exists.mp hsome
  refine ⟨range_block_size lv B, ?_⟩
  rw [hlv]
  rfl

/-- When `index ≥ limit` no block fits and the search reports exhaustion. -/
theorem next_complete_largest_none (index limit maxl B : Nat) (hB : 2 ≤ B)
    (h : limit ≤ index) :
    next_complete_largest_range_block index limit maxl B = some none := by
  rw [next_complete_largest_range_block, if_pos hB]
  have hnone : find_down (fun i => decide (index % range_block_size i B = 0) &&
      decide (index + range_block_size i B ≤ limit)) 0 maxl = none := by
    cases hfd : find_down (fun i => decide (index % range_block_size i B = 0) &&
        decide (index + range_block_size i B ≤ limit)) 0 maxl with
    | none => rfl
    | some lv =>
      obtain ⟨_, _, hp⟩ := find_down_some _ _ _ _ hfd
      simp only [Bool.and_eq_true, decide_eq_true_eq] at hp
      have hpos : 0 < range_block_size lv B := Nat.pos_pow_of_pos _ (by omega)
      omega
  rw [hnone]
  rfl

/-- `CompleteLargestRangeBlockIterator` (`range_blocks.rs` lines 235-250) run
to exhaustion, collecting all produced `(index, count)` pairs in order; after
each block the cursor becomes `index + count`, as in the source's `next`.
`none` models the branch-factor panic.  Termination: a returned block starts
at the cursor, ends at or before `limit_index`, and has positive size. -/
def complete_largest_range_block_list (limit maxl B : Nat) (cursor : Nat) :
    Option (List (Nat × Nat)) :=
  match h : next_complete_largest_range_block cursor limit maxl B with
  | none => none
  | some none => some []
  | some (some (i, c)) =>
    match complete_largest_range_block_list limit maxl B (i + c) with
    | none => none
    | some rest => some ((i, c) :: rest)
termination_by limit - cursor
decreasing_by
  obtain ⟨hB, hi, k, _, hc, _, hfit, _⟩ := next_complete_largest_some_spec _ _ _ _ _ _ h
  have hpos : 0 < range_block_size k B := Nat.pos_pow_of_pos _ (by omega)
  omega

/-- Unfold: the largest-complete iterator stops at an exhausted cursor. -/
theorem complete_largest_list_nil (limit maxl B cursor : Nat)
    (h : next_complete_largest_range_block cursor limit maxl B = some none) :
    complete_largest_range_block_list limit maxl B cursor = some [] := by
  rw [complete_largest_range_block_list]
  split
  · next h1 => rw [h1] at h; exact absurd h (by simp)
  · rfl
  · next i c h1 => rw [h1] at h; simp at h

/-- Unfold: the largest-complete iterator conses a returned block. -/
theorem complete_largest_list_cons (limit maxl B cursor i c : Nat)
    (h : next_complete_largest_range_block cursor limit maxl B =
      some (some (i, c))) :
    complete_largest_range_block_list limit maxl B cursor =
      (complete_largest_range_block_list limit maxl B (i + c)).map
        (fun rest => (i, c) :: rest) := by
  rw [complete_largest_range_block_list]
  split
  · next h1 => rw [h1] at h; exact absurd h (by simp)
  · next h1 => rw [h1] at h; simp at h
  · next i' c' h1 =>
      rw [h1] at h
      have h2 := Option.some_inj.mp (Option.some_inj.mp h)
      have h3 : i' = i := congrArg Prod.fst h2
      have h4 : c' = c := congrArg Prod.snd h2
      subst h3
      subst h4
      cases complete_largest_range_block_list limit maxl B (i' + c') with
      | none => rfl
      | some rest => rfl

/-- An aligned tiling of `[start, limit)` (the notion quantified over by the
minimality part of C4): consecutive blocks starting at `start` and ending at
`limit`, each of size `B^(2k)` for some level `k ≤ maxl`, each with its
offset a multiple of its own size. -/
def IsAlignedTiling (B maxl : Nat) : Nat → Nat → List (Nat × Nat) → Prop
  | start, limit, [] => start = limit
  | start, limit, (o, l) :: rest =>
      o = start ∧ (∃ k, k ≤ maxl ∧ l = range_block_size k B) ∧ l ∣ o ∧
        IsAlignedTiling B maxl (o + l) limit rest

/-- A tiling's cursor never passes `limit`. -/
theorem IsAlignedTiling.start_le (B maxl : Nat) :
    ∀ t start limit, IsAlignedTiling B maxl start limit t → start ≤ limit := by
  intro t
  induction t with
  | nil =>
    intro start limit h
    exact le_of_eq h
  | cons b rest ih =>
    intro start limit h
    obtain ⟨ho, _, _, hrest⟩ := h
    have := ih _ _ hrest
    omega

/-- A tiling's blocks cover exactly `limit - start` bytes. -/
theorem IsAlignedTiling.total_len (B maxl : Nat) :
    ∀ t start limit, IsAlignedTiling B maxl start limit t →
      (t.map (fun b => b.2)).sum = limit - start := by
  intro t
  induction t with
  | nil =>
    intro start limit h
    rw [h]
    simp
  | cons b rest ih =>
    intro start limit h
    obtain ⟨ho, _, _, hrest⟩ := h
    have hle := IsAlignedTiling.start_le B maxl rest _ _ hrest
    simp only [List.map_cons, List.sum_cons]
    rw [ih _ _ hrest, ho]
    omega

/-- Lower-level block sizes divide higher-level ones. -/
theorem range_block_size_dvd (B k a : Nat) (h : k ≤ a) :
    range_block_size k B ∣ range_block_size a B :=
  pow_dvd_pow B (by omega)

/-- Block sizes are monotone in the level (for `B ≥ 2`). -/
theorem range_block_size_le (B k a : Nat) (hB : 2 ≤ B) (h : k ≤ a) :
    range_block_size k B ≤ range_block_size a B :=
  Nat.pow_le_pow_right (by omega) (by omega)

/-- Block sizes are strictly monotone in the level (for `B ≥ 2`). -/
theorem range_block_size_lt (B k a : Nat) (hB : 2 ≤ B) (h : k < a) :
    range_block_size k B < range_block_size a B :=
  Nat.pow_lt_pow_right (by omega) (by omega)

/-- No aligned block inside `[start, limit)` beginning before `start + g`
can end past `start + g`, when `g` is the largest aligned size fitting at
`start`: a smaller-or-equal block ends at a multiple of its size at or
before `start + g`, and a larger block would have to begin exactly at
`start`, contradicting `g`'s maximality. -/
theorem aligned_no_straddle (B maxl start limit g o l : Nat) (hB : 2 ≤ B)
    (a : Nat) (hga : a ≤ maxl) (hgsize : g = range_block_size a B)
    (hgdvd : g ∣ start)
    (hgmax : ∀ j, j ≤ maxl → range_block_size j B ∣ start →
      start + range_block_size j B ≤ limit → range_block_size j B ≤ g)
    (k : Nat) (hka : k ≤ maxl) (hlsize : l = range_block_size k B)
    (hldvd : l ∣ o) (ho1 : start ≤ o) (ho2 : o < start + g)
    (hfit : o + l ≤ limit) : o + l ≤ start + g := by
  by_cases hkl : k ≤ a
  · have hdvd_g : l ∣ g := by
      rw [hlsize, hgsize]
      exact range_block_size_dvd B k a hkl
    have hdvd_start : l ∣ start := dvd_trans hdvd_g hgdvd
    have hdvd_sum : l ∣ start + g := Dvd.dvd.add hdvd_start hdvd_g
    have hdvd_diff : l ∣ start + g - o := Nat.dvd_sub' hdvd_sum hldvd
    have hpos : 0 < start + g - o := by omega
    have hle : l ≤ start + g - o := Nat.le_of_dvd hpos hdvd_diff
    omega
  · exfalso
    have hak : a < k := by omega
    have hdvd_l : g ∣ l := by
      rw [hlsize, hgsize]
      exact range_block_size_dvd B a k (by omega)
    have hgo : g ∣ o := dvd_trans hdvd_l hldvd
    have hgdiff : g ∣ o - start := Nat.dvd_sub' hgo hgdvd
    have hgpos : 0 < g := by
      rw [hgsize]
      exact Nat.pos_pow_of_pos _ (by omega)
    by_cases hos : o = start
    · subst hos
      have hlim : o + range_block_size k B ≤ limit := by rw [← hlsize]; exact hfit
      have hle := hgmax k hka (by rw [← hlsize]; exact hldvd) hlim
      have hlt : g < l := by
        rw [hlsize, hgsize]
        exact range_block_size_lt B a k hB hak
      rw [hlsize] at hlt
      omega
    · have hdpos : 0 < o - start := by omega
      have := Nat.le_of_dvd hdpos hgdiff
      omega

/-- The internal fuel-indexed form of C4 (induction on `limit - start`). -/
theorem complete_largest_minimal_tiling_aux (limit maxl B : Nat) (hB : 1 < B) :
    ∀ n start, limit - start ≤ n → start ≤ limit →
      ∃ blocks,
        complete_largest_range_block_list limit maxl B start = some blocks ∧
        IsAlignedTiling B maxl start limit blocks ∧
        (blocks.map (fun b => b.2)).sum = limit - start ∧
        ∀ t, IsAlignedTiling B maxl start limit t →
          blocks.length ≤ t.length := by
  have hB2 : 2 ≤ B := hB
  intro n
  induction n with
  | zero =>
    intro start hn hsl
    have heq : start = limit := by omega
    refine ⟨[], complete_largest_list_nil limit maxl B start
      (next_complete_largest_none start limit maxl B hB2 (by omega)), heq, by simp [heq], ?_⟩
    intro t _
    simp
  | succ n ih =>
    intro start hn hsl
    by_cases hend : limit ≤ start
    · have heq : start = limit := by omega
      refine ⟨[], complete_largest_list_nil limit maxl B start
        (next_complete_largest_none start limit maxl B hB2 hend), heq, by simp [heq], ?_⟩
      intro t _
      simp
    · obtain ⟨c, hnext⟩ := next_complete_largest_isSome start limit maxl B hB2 (by omega)
      obtain ⟨_, _, k, hka, hc, hdvd, hfit, hmax⟩ :=
        next_complete_largest_some_spec _ _ _ _ _ _ hnext
      have hcfit : start + c ≤ limit := by rw [hc]; exact hfit
      have hcpos : 0 < c := by
        rw [hc]
        exact Nat.pos_pow_of_pos _ (by omega)
      have hgmax : ∀ j, j ≤ maxl → range_block_size j B ∣ start →
          start + range_block_size j B ≤ limit → range_block_size j B ≤ c := by
        intro j hj hd hf
        by_cases hjk : j ≤ k
        · rw [hc]
          exact range_block_size_le B j k hB2 hjk
        · exact absurd ⟨hd, hf⟩ (hmax j (by omega) hj)
      have hcdvd : c ∣ start := by rw [hc]; exact hdvd
      obtain ⟨blocks_g, hbg, htil_g, hsum_g, hmin_g⟩ :=
        ih (start + c) (by omega) (by omega)
      have hlist : complete_largest_range_block_list limit maxl B start =
          some ((start, c) :: blocks_g) := by
        rw [complete_largest_list_cons limit maxl B start start c hnext, hbg]
        rfl
      refine ⟨(start, c) :: blocks_g, hlist,
        ⟨rfl, ⟨k, hka, hc⟩, hcdvd, htil_g⟩, ?_, ?_⟩
      · simp only [List.map_cons, List.sum_cons]
        rw [hsum_g]
        omega
      · intro t htil
        cases t with
        | nil =>
          have : start = limit := htil
          omega
        | cons hd rest =>
          obtain ⟨o, l⟩ := hd
          obtain ⟨ho, ⟨k', hk', hl⟩, hldvd, hrest⟩ := htil
          subst ho
          have hfit' : o + l ≤ limit :=
            IsAlignedTiling.start_le B maxl rest _ _ hrest
          have hlg : l ≤ c := by
            rw [hl]
            exact hgmax k' hk' (hl ▸ hldvd) (by rw [← hl]; exact hfit')
          by_cases hleq : o + l = o + c
          · have hrest' : IsAlignedTiling B maxl (o + c) limit rest := hleq ▸ hrest
            have := hmin_g rest hrest'
            simp only [List.length_cons]
            omega
          · have hol : o + l < o + c := by omega
            have hC : ∀ t' u, o ≤ u → u < o + c →
                IsAlignedTiling B maxl u limit t' →
                blocks_g.length + 1 ≤ t'.length := by
              intro t'
              induction t' with
              | nil =>
                intro u hu1 hu2 htil'
                have : u = limit := htil'
                omega
              | cons hd2 rest2 ih2 =>
                intro u hu1 hu2 htil'
                obtain ⟨o2, l2⟩ := hd2
                obtain ⟨ho2, ⟨k2, hk2, hl2⟩, hl2dvd, hrest2⟩ := htil'
                subst ho2
                have hfit2 : o2 + l2 ≤ limit :=
                  IsAlignedTiling.start_le B maxl rest2 _ _ hrest2
                have hns : o2 + l2 ≤ o + c :=
                  aligned_no_straddle B maxl o limit c o2 l2 hB2 k hka hc
                    hcdvd hgmax k2 hk2 hl2 hl2dvd hu1 hu2 hfit2
                by_cases hend2 : o2 + l2 = o + c
                · have hrest2' : IsAlignedTiling B maxl (o + c) limit rest2 :=
                    hend2 ▸ hrest2
                  have := hmin_g rest2 hrest2'
                  simp only [List.length_cons]
                  omega
                · have := ih2 (o2 + l2) (by omega) (by omega) hrest2
                  simp only [List.length_cons]
                  omega
            have := hC rest (o + l) (by omega) hol hrest
            simp only [List.length_cons]
            omega

/-- C4: for every `start ≤ limit` and branch factor `B > 1`, running
`CompleteLargestRangeBlockIterator(start, limit, maxLevel, B)` to exhaustion
yields blocks that are contiguous from `start` (hence pairwise
non-overlapping), each aligned (offset a multiple of its own length, length
a power of `B²` at a level `≤ maxLevel`), with total length exactly
`limit - start`, and whose count is minimal over all such aligned tilings of
`[start, limit)`. -/
theorem complete_largest_range_block_minimal_tiling (start limit maxl B : Nat)
    (hB : 1 < B) (hsl : start ≤ limit) :
    ∃ blocks,
      complete_largest_range_block_list limit maxl B start = some blocks ∧
      IsAlignedTiling B maxl start limit blocks ∧
      (blocks.map (fun b => b.2)).sum = limit - start ∧
      ∀ t, IsAlignedTiling B maxl start limit t →
        blocks.length ≤ t.length :=
  complete_largest_minimal_tiling_aux limit maxl B hB (limit - start) start
    (le_refl _) hsl

/-- Witness for C4 at `start = 1`, `limit = 8`, `maxLevel = 2`, `B = 2`: the
greedy tiling is `[(1,1), (2,1), (3,1), (4,4)]`, covers 7 bytes, and uses no
more blocks than the 7-block all-cells tiling. -/
theorem complete_largest_range_block_minimal_tiling_witness :
    complete_largest_range_block_list 8 2 2 1 =
      some [(1, 1), (2, 1), (3, 1), (4, 4)] ∧
    ([(1, 1), (2, 1), (3, 1), (4, 4)].map (fun b : Nat × Nat => b.2)).sum =
      8 - 1 ∧
    [(1, 1), (2, 1), (3, 1), (4, 4)].length ≤
      [(1, 1), (2, 1), (3, 1), (4, 1), (5, 1), (6, 1), (7, 1)].length := by
  have hexp : complete_largest_range_block_list 8 2 2 1 =
      some [(1, 1), (2, 1), (3, 1), (4, 4)] := by
    rw [complete_largest_list_cons 8 2 2 1 1 1 (by decide)]
    rw [show (1 + 1 : Nat) = 2 from rfl]
    rw [complete_largest_list_cons 8 2 2 2 2 1 (by decide)]
    rw [show (2 + 1 : Nat) = 3 from rfl]
    rw [complete_largest_list_cons 8 2 2 3 3 1 (by decide)]
    rw [show (3 + 1 : Nat) = 4 from rfl]
    rw [complete_largest_list_cons 8 2 2 4 4 4 (by decide)]
    rw [show (4 + 4 : Nat) = 8 from rfl]
    rw [complete_largest_list_nil 8 2 2 8 (by decide)]
    rfl
  obtain ⟨blocks, hlist, htil, hsum, hmin⟩ :=
    complete_largest_range_block_minimal_tiling 1 8 2 2 (by decide) (by decide)
  have hbl : blocks = [(1, 1), (2, 1), (3, 1), (4, 4)] :=
    Option.some_inj.mp (hlist.symm.trans hexp)
  refine ⟨hexp, by decide, ?_⟩
  rw [← hbl]
  exact hmin [(1, 1), (2, 1), (3, 1), (4, 1), (5, 1), (6, 1), (7, 1)]
    ⟨rfl, ⟨0, by omega, rfl⟩, one_dvd _, rfl, ⟨0, by omega, rfl⟩, one_dvd _,
     rfl, ⟨0, by omega, rfl⟩, one_dvd _, rfl, ⟨0, by omega, rfl⟩, one_dvd _,
     rfl, ⟨0, by omega, rfl⟩, one_dvd _, rfl, ⟨0, by omega, rfl⟩, one_dvd _,
     rfl, ⟨0, by omega, rfl⟩, one_dvd _, rfl⟩

/-- `Edge` from `range_border.rs` lines 11-17 (the source field `end` is a
Lean keyword, rendered `e_end`). -/
structure Edge where
  id : Nat
  next : Nat
  start : CellCoords
  e_end : CellCoords

deriving instance DecidableEq, Repr for Edge

/-- `RangeBorder` from `range_border.rs` lines 5-9. -/
structure RangeBorder where
  next_edge_id : Nat
  edges : List Edge

deriving instance DecidableEq, Repr for RangeBorder

/-- The scan loop of `RangeBorder::add_edge` (`range_border.rs` lines
48-64): fold over the existing edges, absorbing a collinear edge that ends
at the new edge's current start (taking its `id` and `start`), absorbing a
collinear edge that starts at the new edge's current end (taking its `next`
and `end`), and keeping every other edge, in order. -/
def add_edge_go : List Edge → Nat → Nat → CellCoords → CellCoords →
    List Edge → Nat × Nat × CellCoords × CellCoords × List Edge
  | [], id, next, start, e_end, next_edges => (id, next, start, e_end, next_edges)
  | edge :: rest, id, next, start, e_end, next_edges =>
    if edge.e_end = start ∧ (edge.start.x = e_end.x ∨ edge.start.y = e_end.y) then
      add_edge_go rest edge.id next edge.start e_end next_edges
    else if e_end = edge.start ∧ (start.x = edge.e_end.x ∨ start.y = edge.e_end.y) then
      add_edge_go rest id edge.next start edge.e_end next_edges
    else
      add_edge_go rest id next start e_end (next_edges ++ [edge])

/-- `RangeBorder::add_edge` (`range_border.rs` lines 38-77).  `none` models
the panic of the axis-alignment assert; after the scan, the merged edge is
appended unless it became null (`start = end`). -/
def add_edge (edges : List Edge) (id next : Nat) (start e_end : CellCoords) :
    Option (List Edge) :=
  if start.x = e_end.x ∨ start.y = e_end.y then
    some (match add_edge_go edges id next start e_end [] with
      | (id', next', start', e_end', next_edges) =>
        if start' = e_end' then next_edges
        else next_edges ++ [⟨id', next', start', e_end'⟩])
  else none

/-- `RangeBorder::add_rect` (`range_border.rs` lines 20-36): four directed
edges (top, right, bottom, left), consecutive ids chained in a cycle. -/
def add_rect (rb : RangeBorder) (top_left bottom_right : CellCoords) :
    Option RangeBorder :=
  let top_right : CellCoords := ⟨bottom_right.x, top_left.y⟩
  let bottom_left : CellCoords := ⟨top_left.x, bottom_right.y⟩
  let id := rb.next_edge_id
  match add_edge rb.edges id (id + 1) top_left top_right with
  | none => none
  | some e1 =>
    match add_edge e1 (id + 1) (id + 2) top_right bottom_right with
    | none => none
    | some e2 =>
      match add_edge e2 (id + 2) (id + 3) bottom_right bottom_left with
      | none => none
      | some e3 =>
        match add_edge e3 (id + 3) id bottom_left top_left with
        | none => none
        | some e4 => some ⟨rb.next_edge_id + 4, e4⟩

/-- A sequence of `add_rect` calls on a fresh `RangeBorder::default()`. -/
def add_rects (rects : List (CellCoords × CellCoords)) : Option RangeBorder :=
  rects.foldlM (fun rb r => add_rect rb r.1 r.2) ⟨0, []⟩

/-- Walk the `next` chain from `cur` for at most `fuel` steps, checking
whether it reaches `target`; lookups are by edge id. -/
def walk_reaches (edges : List Edge) (target : Nat) : Nat → Nat → Bool
  | 0, _ => false
  | fuel + 1, cur =>
    if cur = target then true
    else
      match edges.find? (fun e2 => decide (e2.id = cur)) with
      | none => false
      | some e2 => walk_reaches edges target fuel e2.next

/-- The closed-cycle invariant of claim C8 on an edge set: every edge's
`next` names an edge of the set; no two edges share a `next`; following
`next` pointers from any edge returns to that edge (within `|edges|` steps,
which suffices for any cycle); and every edge's end equals its successor's
start. -/
def border_invariant (edges : List Edge) : Bool :=
  edges.all (fun e => edges.any (fun e2 => decide (e2.id = e.next))) &&
  decide ((edges.map (fun e => e.next)).Nodup) &&
  edges.all (fun e => edges.all (fun e2 =>
    !(decide (e2.id = e.next)) || decide (e2.start = e.e_end))) &&
  edges.all (fun e => walk_reaches edges e.id (edges.length + 1) e.next)

/-- The six-rectangle configuration of the source's own regression test
`test_perimeter_broken_loop_bug` (`range_border.rs` lines 185-204). -/
def broken_loop_rects : List (CellCoords × CellCoords) :=
  [(⟨3, 2⟩, ⟨4, 3⟩), (⟨0, 3⟩, ⟨1, 4⟩), (⟨1, 3⟩, ⟨2, 4⟩),
   (⟨2, 3⟩, ⟨3, 4⟩), (⟨3, 3⟩, ⟨4, 4⟩), (⟨4, 0⟩, ⟨8, 4⟩)]

/-- One loop walk of `LoopIter` (`range_border.rs` lines 117-128): starting
from `next_id`, repeatedly remove the edge carrying the current id (the
`HashMap` is modelled as a list with unique ids) and follow its `next`;
stop when the id is absent.  Returns the visited edges in order, and the
remaining edges.  Every step removes at least one edge, so the caller's
`edges.length + 1` fuel steps are never exhausted; the fuel only makes the
recursion structural. -/
def extract_loop_go : Nat → List Edge → Nat → List Edge × List Edge
  | 0, edges, _ => ([], edges)
  | fuel + 1, edges, next_id =>
    match edges.find? (fun e => decide (e.id = next_id)) with
    | none => ([], edges)
    | some e =>
      let rest := edges.filter (fun e2 => decide ¬(e2.id = next_id))
      let res := extract_loop_go fuel rest e.next
      (e :: res.1, res.2)

/-- `LoopIter` for one loop, from the edge set and the starting id. -/
def extract_loop (edges : List Edge) (next_id : Nat) : List Edge × List Edge :=
  extract_loop_go (edges.length + 1) edges next_id

/-- `LoopsIter` drained (`range_border.rs` lines 93-101): repeatedly pick
the lowest remaining id and extract its loop.  Each round removes at least
the picked edge, so `edges.length + 1` rounds are never exhausted. -/
def extract_loops_go : Nat → List Edge → List (List Edge)
  | 0, _ => []
  | fuel + 1, edges =>
    match (edges.map (fun e => e.id)).min? with
    | none => []
    | some first_id =>
      let res := extract_loop edges first_id
      res.1 :: extract_loops_go fuel res.2

/-- All loops of an edge set, in ascending order of their lowest edge id. -/
def extract_loops (edges : List Edge) : List (List Edge) :=
  extract_loops_go (edges.length + 1) edges

/-- `LoopsIter::new` (`range_border.rs` lines 85-91) asserts unique ids
(`none` models that panic), then the loops are drained. -/
def loops_of_edges (edges : List Edge) : Option (List (List Edge)) :=
  if (edges.map (fun e => e.id)).Nodup then some (extract_loops edges)
  else none

/-- C8 fails on the code: after adding three rectangles meeting at the
corner `(1, 1)` - `(0,0)-(1,1)`, `(1,1)-(2,2)`, `(0,1)-(1,2)` - the edge
with id 1 has `next = 4` but no edge with id 4 remains in the set, a
dangling `next` pointer, so the closed-cycle invariant of the claim is
violated (the conjuncts "every next names a present edge" and "following
next returns to the start" are both false).  The source's own regression
test `test_perimeter_broken_loop_bug` documents breakage of this kind. -/
theorem border_invariant_violated :
    (add_rects [(⟨0, 0⟩, ⟨1, 1⟩), (⟨1, 1⟩, ⟨2, 2⟩), (⟨0, 1⟩, ⟨1, 2⟩)]).map
      (fun rb => border_invariant rb.edges) = some false ∧
    (add_rects [(⟨0, 0⟩, ⟨1, 1⟩), (⟨1, 1⟩, ⟨2, 2⟩), (⟨0, 1⟩, ⟨1, 2⟩)]).map
      (fun rb => rb.edges.any (fun e => decide (e.next = 4)) &&
        !(rb.edges.any (fun e => decide (e.id = 4)))) = some true := by
  constructor
  · decide
  · decide

/-- Axis-wise coordinate relabelling.  The border algorithms compare
coordinates only for equality, so any injective relabelling of each axis
commutes with them; this transports concrete boundary computations to
arbitrary coordinates. -/
def map_coords (fx fy : Nat → Nat) (p : CellCoords) : CellCoords :=
  ⟨fx p.x, fy p.y⟩

/-- Relabelling of an edge's two endpoints (ids untouched). -/
def map_edge (fx fy : Nat → Nat) (e : Edge) : Edge :=
  ⟨e.id, e.next, map_coords fx fy e.start, map_coords fx fy e.e_end⟩

/-- Injective relabelling preserves and reflects coordinate equality. -/
theorem map_coords_eq_iff (fx fy : Nat → Nat) (hfx : Function.Injective fx)
    (hfy : Function.Injective fy) (p q : CellCoords) :
    map_coords fx fy p = map_coords fx fy q ↔ p = q := by
  cases p
  cases q
  simp [map_coords, hfx.eq_iff, hfy.eq_iff]

/-- Componentwise characterization of coordinate equality. -/
theorem cell_coords_eq_iff (p q : CellCoords) : p = q ↔ p.x = q.x ∧ p.y = q.y := by
  cases p
  cases q
  simp

/-- The `add_edge` scan commutes with injective coordinate relabelling. -/
theorem add_edge_go_map (fx fy : Nat → Nat) (hfx : Function.Injective fx)
    (hfy : Function.Injective fy) :
    ∀ l id next s e acc,
      add_edge_go (l.map (map_edge fx fy)) id next (map_coords fx fy s)
        (map_coords fx fy e) (acc.map (map_edge fx fy)) =
      (fun r => (r.1, r.2.1, map_coords fx fy r.2.2.1,
        map_coords fx fy r.2.2.2.1, r.2.2.2.2.map (map_edge fx fy)))
        (add_edge_go l id next s e acc) := by
  intro l
  induction l with
  | nil =>
    intro id next s e acc
    rfl
  | cons edge rest ih =>
    intro id next s e acc
    simp only [List.map_cons]
    rw [add_edge_go, add_edge_go]
    have hc1 : ((map_edge fx fy edge).e_end = map_coords fx fy s ∧
        ((map_edge fx fy edge).start.x = (map_coords fx fy e).x ∨
         (map_edge fx fy edge).start.y = (map_coords fx fy e).y)) ↔
        (edge.e_end = s ∧ (edge.start.x = e.x ∨ edge.start.y = e.y)) := by
      simp [map_edge, map_coords, map_coords_eq_iff fx fy hfx hfy,
        hfx.eq_iff, hfy.eq_iff, cell_coords_eq_iff]
    have hc2 : (map_coords fx fy e = (map_edge fx fy edge).start ∧
        ((map_coords fx fy s).x = (map_edge fx fy edge).e_end.x ∨
         (map_coords fx fy s).y = (map_edge fx fy edge).e_end.y)) ↔
        (e = edge.start ∧ (s.x = edge.e_end.x ∨ s.y = edge.e_end.y)) := by
      simp [map_edge, map_coords, map_coords_eq_iff fx fy hfx hfy,
        hfx.eq_iff, hfy.eq_iff, cell_coords_eq_iff]
    by_cases h1 : edge.e_end = s ∧ (edge.start.x = e.x ∨ edge.start.y = e.y)
    · rw [if_pos (hc1.mpr h1), if_pos h1]
      exact ih edge.id next edge.start e acc
    · rw [if_neg (fun hx => h1 (hc1.mp hx)), if_neg h1]
      by_cases h2 : e = edge.start ∧ (s.x = edge.e_end.x ∨ s.y = edge.e_end.y)
      · rw [if_pos (hc2.mpr h2), if_pos h2]
        exact ih id edge.next s edge.e_end acc
      · rw [if_neg (fun hx => h2 (hc2.mp hx)), if_neg h2]
        rw [show (acc.map (map_edge fx fy)) ++ [map_edge fx fy edge] =
          (acc ++ [edge]).map (map_edge fx fy) by simp]
        exact ih id next s e (acc ++ [edge])

/-- `add_edge` commutes with injective coordinate relabelling. -/
theorem add_edge_map (fx fy : Nat → Nat) (hfx : Function.Injective fx)
    (hfy : Function.Injective fy) (l : List Edge) (id next : Nat)
    (s e : CellCoords) :
    add_edge (l.map (map_edge fx fy)) id next (map_coords fx fy s)
      (map_coords fx fy e) =
      (add_edge l id next s e).map (List.map (map_edge fx fy)) := by
  unfold add_edge
  have hax : ((map_coords fx fy s).x = (map_coords fx fy e).x ∨
      (map_coords fx fy s).y = (map_coords fx fy e).y) ↔
      (s.x = e.x ∨ s.y = e.y) := by
    simp [map_coords, hfx.eq_iff, hfy.eq_iff]
  by_cases ha : s.x = e.x ∨ s.y = e.y
  · rw [if_pos (hax.mpr ha), if_pos ha]
    have hgo := add_edge_go_map fx fy hfx hfy l id next s e []
    simp only [List.map_nil] at hgo
    rcases hr : add_edge_go l id next s e [] with ⟨id', next', s', e', out⟩
    rw [hr] at hgo
    rw [hgo]
    simp only [Option.map_some']
    by_cases hnull : s' = e'
    · rw [if_pos hnull,
        if_pos ((map_coords_eq_iff fx fy hfx hfy s' e').mpr hnull)]
    · rw [if_neg hnull,
        if_neg (fun hcc => hnull ((map_coords_eq_iff fx fy hfx hfy s' e').mp hcc))]
      simp [map_edge]
  · rw [if_neg (fun hcc => ha (hax.mp hcc)), if_neg ha]
    rfl

/-- `add_rect` commutes with injective coordinate relabelling. -/
theorem add_rect_map (fx fy : Nat → Nat) (hfx : Function.Injective fx)
    (hfy : Function.Injective fy) (nid : Nat) (l : List Edge)
    (tl br : CellCoords) :
    add_rect ⟨nid, l.map (map_edge fx fy)⟩ (map_coords fx fy tl)
      (map_coords fx fy br) =
      (add_rect ⟨nid, l⟩ tl br).map
        (fun rb => ⟨rb.next_edge_id, rb.edges.map (map_edge fx fy)⟩) := by
  unfold add_rect
  simp only
  rw [show (⟨(map_coords fx fy br).x, (map_coords fx fy tl).y⟩ : CellCoords) =
    map_coords fx fy ⟨br.x, tl.y⟩ from rfl]
  rw [show (⟨(map_coords fx fy tl).x, (map_coords fx fy br).y⟩ : CellCoords) =
    map_coords fx fy ⟨tl.x, br.y⟩ from rfl]
  rw [add_edge_map fx fy hfx hfy l nid (nid + 1) tl ⟨br.x, tl.y⟩]
  cases h1 : add_edge l nid (nid + 1) tl ⟨br.x, tl.y⟩ with
  | none => rfl
  | some e1 =>
    simp only [Option.map_some']
    rw [add_edge_map fx fy hfx hfy e1 (nid + 1) (nid + 2) ⟨br.x, tl.y⟩ br]
    cases h2 : add_edge e1 (nid + 1) (nid + 2) ⟨br.x, tl.y⟩ br with
    | none => rfl
    | some e2 =>
      simp only [Option.map_some']
      rw [add_edge_map fx fy hfx hfy e2 (nid + 2) (nid + 3) br ⟨tl.x, br.y⟩]
      cases h3 : add_edge e2 (nid + 2) (nid + 3) br ⟨tl.x, br.y⟩ with
      | none => rfl
      | some e3 =>
        simp only [Option.map_some']
        rw [add_edge_map fx fy hfx hfy e3 (nid + 3) nid ⟨tl.x, br.y⟩ tl]
        cases h4 : add_edge e3 (nid + 3) nid ⟨tl.x, br.y⟩ tl with
        | none => rfl
        | some e4 => rfl

/-- `foldlM` of `add_rect` commutes with injective coordinate relabelling. -/
theorem add_rects_go_map (fx fy : Nat → Nat) (hfx : Function.Injective fx)
    (hfy : Function.Injective fy) :
    ∀ (rects : List (CellCoords × CellCoords)) (rb : RangeBorder),
      List.foldlM (fun rb r => add_rect rb r.1 r.2)
        (⟨rb.next_edge_id, rb.edges.map (map_edge fx fy)⟩ : RangeBorder)
        (rects.map (fun r => (map_coords fx fy r.1, map_coords fx fy r.2))) =
      (List.foldlM (fun rb r => add_rect rb r.1 r.2) rb rects).map
        (fun rb => ⟨rb.next_edge_id, rb.edges.map (map_edge fx fy)⟩) := by
  intro rects
  induction rects with
  | nil =>
    intro rb
    rfl
  | cons r rest ih =>
    intro rb
    simp only [List.map_cons, List.foldlM_cons]
    have hstep := add_rect_map fx fy hfx hfy rb.next_edge_id rb.edges r.1 r.2
    rw [show (⟨rb.next_edge_id, rb.edges⟩ : RangeBorder) = rb from rfl] at hstep
    rw [hstep]
    cases h : add_rect rb r.1 r.2 with
    | none => rfl
    | some rb' =>
      simp only [Option.map_some']
      show List.foldlM _ (⟨rb'.next_edge_id, rb'.edges.map (map_edge fx fy)⟩ :
        RangeBorder) _ = _
      exact ih rb'

/-- `add_rects` commutes with injective coordinate relabelling. -/
theorem add_rects_map (fx fy : Nat → Nat) (hfx : Function.Injective fx)
    (hfy : Function.Injective fy) (rects : List (CellCoords × CellCoords)) :
    add_rects (rects.map (fun r => (map_coords fx fy r.1, map_coords fx fy r.2))) =
      (add_rects rects).map
        (fun rb => ⟨rb.next_edge_id, rb.edges.map (map_edge fx fy)⟩) :=
  add_rects_go_map fx fy hfx hfy rects ⟨0, []⟩

/-- Id-based lookup ignores coordinate relabelling. -/
theorem find_id_map (fx fy : Nat → Nat) :
    ∀ (l : List Edge) (nid : Nat),
      (l.map (map_edge fx fy)).find? (fun e => decide (e.id = nid)) =
        (l.find? (fun e => decide (e.id = nid))).map (map_edge fx fy) := by
  intro l nid
  induction l with
  | nil => rfl
  | cons a rest ih =>
    simp only [List.map_cons]
    by_cases h : a.id = nid
    · rw [List.find?_cons_of_pos _ (by simp [map_edge, h]),
        List.find?_cons_of_pos _ (by simp [h])]
      rfl
    · rw [List.find?_cons_of_neg _ (by simp [map_edge, h]),
        List.find?_cons_of_neg _ (by simp [h])]
      exact ih

/-- Id-based removal ignores coordinate relabelling. -/
theorem filter_id_map (fx fy : Nat → Nat) :
    ∀ (l : List Edge) (nid : Nat),
      (l.map (map_edge fx fy)).filter (fun e2 => decide ¬(e2.id = nid)) =
        (l.filter (fun e2 => decide ¬(e2.id = nid))).map (map_edge fx fy) := by
  intro l nid
  induction l with
  | nil => rfl
  | cons a rest ih =>
    simp only [List.map_cons]
    by_cases h : a.id = nid
    · rw [List.filter_cons_of_neg (by simp [map_edge, h]),
        List.filter_cons_of_neg (by simp [h])]
      exact ih
    · rw [List.filter_cons_of_pos (by simp [map_edge, h]),
        List.filter_cons_of_pos (by simp [h])]
      rw [List.map_cons, ih]

/-- The loop walk commutes with coordinate relabelling. -/
theorem extract_loop_go_map (fx fy : Nat → Nat) :
    ∀ fuel (l : List Edge) (nid : Nat),
      extract_loop_go fuel (l.map (map_edge fx fy)) nid =
        ((extract_loop_go fuel l nid).1.map (map_edge fx fy),
         (extract_loop_go fuel l nid).2.map (map_edge fx fy)) := by
  intro fuel
  induction fuel with
  | zero =>
    intro l nid
    rfl
  | succ fuel ih =>
    intro l nid
    rw [extract_loop_go, extract_loop_go, find_id_map]
    cases h : l.find? (fun e => decide (e.id = nid)) with
    | none => rfl
    | some e =>
      simp only [Option.map_some']
      rw [show (map_edge fx fy e).next = e.next from rfl, filter_id_map, ih]
      simp

/-- `extract_loop` commutes with coordinate relabelling. -/
theorem extract_loop_map (fx fy : Nat → Nat) (l : List Edge) (nid : Nat) :
    extract_loop (l.map (map_edge fx fy)) nid =
      ((extract_loop l nid).1.map (map_edge fx fy),
       (extract_loop l nid).2.map (map_edge fx fy)) := by
  unfold extract_loop
  rw [List.length_map]
  exact extract_loop_go_map fx fy (l.length + 1) l nid

/-- The minimum id is unaffected by coordinate relabelling. -/
theorem min_id_map (fx fy : Nat → Nat) (l : List Edge) :
    ((l.map (map_edge fx fy)).map (fun e => e.id)).min? =
      (l.map (fun e => e.id)).min? := by
  rw [List.map_map]
  rfl

/-- The loop drain commutes with coordinate relabelling. -/
theorem extract_loops_go_map (fx fy : Nat → Nat) :
    ∀ fuel (l : List Edge),
      extract_loops_go fuel (l.map (map_edge fx fy)) =
        (extract_loops_go fuel l).map (List.map (map_edge fx fy)) := by
  intro fuel
  induction fuel with
  | zero =>
    intro l
    rfl
  | succ fuel ih =>
    intro l
    rw [extract_loops_go, extract_loops_go, min_id_map]
    cases h : (l.map (fun e => e.id)).min? with
    | none => rfl
    | some first =>
      simp only
      rw [extract_loop_map fx fy l first]
      rw [show ((extract_loop l first).2.map (map_edge fx fy)) =
        List.map (map_edge fx fy) (extract_loop l first).2 from rfl]
      rw [ih ((extract_loop l first).2)]
      rfl

/-- `extract_loops` commutes with coordinate relabelling. -/
theorem extract_loops_map (fx fy : Nat → Nat) (l : List Edge) :
    extract_loops (l.map (map_edge fx fy)) =
      (extract_loops l).map (List.map (map_edge fx fy)) := by
  unfold extract_loops
  rw [List.length_map]
  exact extract_loops_go_map fx fy (l.length + 1) l

/-- `loops_of_edges` commutes with coordinate relabelling. -/
theorem loops_of_edges_map (fx fy : Nat → Nat) (l : List Edge) :
    loops_of_edges (l.map (map_edge fx fy)) =
      (loops_of_edges l).map (List.map (List.map (map_edge fx fy))) := by
  unfold loops_of_edges
  have hids : (l.map (map_edge fx fy)).map (fun e => e.id) =
      l.map (fun e => e.id) := by
    rw [List.map_map]
    rfl
  rw [hids]
  by_cases h : (l.map (fun e => e.id)).Nodup
  · rw [if_pos h, if_pos h, extract_loops_map]
    rfl
  · rw [if_neg h, if_neg h]
    rfl

/-- Injective relabelling sending `0 ↦ u`, `1 ↦ v` (`u < v`). -/
def relabel2 (u v : Nat) : Nat → Nat := fun n =>
  if n = 0 then u else v + (n - 1)

/-- `relabel2` is injective when `u < v`. -/
theorem relabel2_injective (u v : Nat) (h : u < v) :
    Function.Injective (relabel2 u v) := by
  intro a b hab
  unfold relabel2 at hab
  split_ifs at hab <;> omega

/-- Injective relabelling sending `0 ↦ u`, `1 ↦ v`, `2 ↦ w` (`u < v < w`). -/
def relabel3 (u v w : Nat) : Nat → Nat := fun n =>
  if n = 0 then u else if n = 1 then v else w + (n - 2)

/-- `relabel3` is injective when `u < v < w`. -/
theorem relabel3_injective (u v w : Nat) (h1 : u < v) (h2 : v < w) :
    Function.Injective (relabel3 u v w) := by
  intro a b hab
  unfold relabel3 at hab
  split_ifs at hab <;> omega

/-- Boundary extraction of one non-degenerate rectangle: exactly one loop of
exactly four edges tracing the rectangle. -/
theorem single_rect_loops (tl br : CellCoords) (h1 : tl.x < br.x)
    (h2 : tl.y < br.y) :
    (add_rects [(tl, br)]).map (fun rb => loops_of_edges rb.edges) =
      some (some [[⟨0, 1, tl, ⟨br.x, tl.y⟩⟩, ⟨1, 2, ⟨br.x, tl.y⟩, br⟩,
        ⟨2, 3, br, ⟨tl.x, br.y⟩⟩, ⟨3, 0, ⟨tl.x, br.y⟩, tl⟩]]) := by
  have hfx := relabel2_injective tl.x br.x h1
  have hfy := relabel2_injective tl.y br.y h2
  have hrects : [((tl : CellCoords), br)] =
      [((⟨0, 0⟩ : CellCoords), (⟨1, 1⟩ : CellCoords))].map
        (fun r => (map_coords (relabel2 tl.x br.x) (relabel2 tl.y br.y) r.1,
                   map_coords (relabel2 tl.x br.x) (relabel2 tl.y br.y) r.2)) := by
    cases tl
    cases br
    rfl
  rw [hrects, add_rects_map _ _ hfx hfy]
  rw [show add_rects [((⟨0, 0⟩ : CellCoords), (⟨1, 1⟩ : CellCoords))] =
    some ⟨4, [⟨0, 1, ⟨0, 0⟩, ⟨1, 0⟩⟩, ⟨1, 2, ⟨1, 0⟩, ⟨1, 1⟩⟩,
      ⟨2, 3, ⟨1, 1⟩, ⟨0, 1⟩⟩, ⟨3, 0, ⟨0, 1⟩, ⟨0, 0⟩⟩]⟩ from by decide]
  simp only [Option.map_some']
  rw [loops_of_edges_map]
  rw [show loops_of_edges [(⟨0, 1, ⟨0, 0⟩, ⟨1, 0⟩⟩ : Edge), ⟨1, 2, ⟨1, 0⟩, ⟨1, 1⟩⟩,
      ⟨2, 3, ⟨1, 1⟩, ⟨0, 1⟩⟩, ⟨3, 0, ⟨0, 1⟩, ⟨0, 0⟩⟩] =
    some [[⟨0, 1, ⟨0, 0⟩, ⟨1, 0⟩⟩, ⟨1, 2, ⟨1, 0⟩, ⟨1, 1⟩⟩,
      ⟨2, 3, ⟨1, 1⟩, ⟨0, 1⟩⟩, ⟨3, 0, ⟨0, 1⟩, ⟨0, 0⟩⟩]] from by decide]
  cases tl
  cases br
  rfl

/-- Boundary extraction of two rectangles sharing a full vertical edge
(left rectangle `(a,b)-(c,d)`, right rectangle `(c,b)-(e,d)`): exactly one
loop, with no edge on the shared boundary `x = c` (the loop is the outer
perimeter of the union). -/
theorem shared_edge_horizontal_loops (a c e b d : Nat) (hac : a < c)
    (hce : c < e) (hbd : b < d) :
    (add_rects [(⟨a, b⟩, ⟨c, d⟩), (⟨c, b⟩, ⟨e, d⟩)]).map
      (fun rb => loops_of_edges rb.edges) =
      some (some [[⟨0, 5, ⟨a, b⟩, ⟨e, b⟩⟩, ⟨5, 6, ⟨e, b⟩, ⟨e, d⟩⟩,
        ⟨6, 3, ⟨e, d⟩, ⟨a, d⟩⟩, ⟨3, 0, ⟨a, d⟩, ⟨a, b⟩⟩]]) := by
  have hfx := relabel3_injective a c e hac hce
  have hfy := relabel2_injective b d hbd
  have hrects : [((⟨a, b⟩ : CellCoords), (⟨c, d⟩ : CellCoords)),
      (⟨c, b⟩, ⟨e, d⟩)] =
      [((⟨0, 0⟩ : CellCoords), (⟨1, 1⟩ : CellCoords)), (⟨1, 0⟩, ⟨2, 1⟩)].map
        (fun r => (map_coords (relabel3 a c e) (relabel2 b d) r.1,
                   map_coords (relabel3 a c e) (relabel2 b d) r.2)) := rfl
  rw [hrects, add_rects_map _ _ hfx hfy]
  rw [show add_rects [((⟨0, 0⟩ : CellCoords), (⟨1, 1⟩ : CellCoords)),
      (⟨1, 0⟩, ⟨2, 1⟩)] =
    some ⟨8, [⟨3, 0, ⟨0, 1⟩, ⟨0, 0⟩⟩, ⟨0, 5, ⟨0, 0⟩, ⟨2, 0⟩⟩,
      ⟨5, 6, ⟨2, 0⟩, ⟨2, 1⟩⟩, ⟨6, 3, ⟨2, 1⟩, ⟨0, 1⟩⟩]⟩ from by decide]
  simp only [Option.map_some']
  rw [loops_of_edges_map]
  rw [show loops_of_edges [(⟨3, 0, ⟨0, 1⟩, ⟨0, 0⟩⟩ : Edge), ⟨0, 5, ⟨0, 0⟩, ⟨2, 0⟩⟩,
      ⟨5, 6, ⟨2, 0⟩, ⟨2, 1⟩⟩, ⟨6, 3, ⟨2, 1⟩, ⟨0, 1⟩⟩] =
    some [[⟨0, 5, ⟨0, 0⟩, ⟨2, 0⟩⟩, ⟨5, 6, ⟨2, 0⟩, ⟨2, 1⟩⟩,
      ⟨6, 3, ⟨2, 1⟩, ⟨0, 1⟩⟩, ⟨3, 0, ⟨0, 1⟩, ⟨0, 0⟩⟩]] from by decide]
  rfl

/-- Boundary extraction of two rectangles sharing a full horizontal edge
(top rectangle `(a,b)-(c,d)`, bottom rectangle `(a,d)-(c,f)`): exactly one
loop, with no edge on the shared boundary `y = d`. -/
theorem shared_edge_vertical_loops (a c b d f : Nat) (hac : a < c)
    (hbd : b < d) (hdf : d < f) :
    (add_rects [(⟨a, b⟩, ⟨c, d⟩), (⟨a, d⟩, ⟨c, f⟩)]).map
      (fun rb => loops_of_edges rb.edges) =
      some (some [[⟨0, 1, ⟨a, b⟩, ⟨c, b⟩⟩, ⟨1, 6, ⟨c, b⟩, ⟨c, f⟩⟩,
        ⟨6, 7, ⟨c, f⟩, ⟨a, f⟩⟩, ⟨7, 0, ⟨a, f⟩, ⟨a, b⟩⟩]]) := by
  have hfx := relabel2_injective a c hac
  have hfy := relabel3_injective b d f hbd hdf
  have hrects : [((⟨a, b⟩ : CellCoords), (⟨c, d⟩ : CellCoords)),
      (⟨a, d⟩, ⟨c, f⟩)] =
      [((⟨0, 0⟩ : CellCoords), (⟨1, 1⟩ : CellCoords)), (⟨0, 1⟩, ⟨1, 2⟩)].map
        (fun r => (map_coords (relabel2 a c) (relabel3 b d f) r.1,
                   map_coords (relabel2 a c) (relabel3 b d f) r.2)) := rfl
  rw [hrects, add_rects_map _ _ hfx hfy]
  rw [show add_rects [((⟨0, 0⟩ : CellCoords), (⟨1, 1⟩ : CellCoords)),
      (⟨0, 1⟩, ⟨1, 2⟩)] =
    some ⟨8, [⟨0, 1, ⟨0, 0⟩, ⟨1, 0⟩⟩, ⟨1, 6, ⟨1, 0⟩, ⟨1, 2⟩⟩,
      ⟨6, 7, ⟨1, 2⟩, ⟨0, 2⟩⟩, ⟨7, 0, ⟨0, 2⟩, ⟨0, 0⟩⟩]⟩ from by decide]
  simp only [Option.map_some']
  rw [loops_of_edges_map]
  rw [show loops_of_edges [(⟨0, 1, ⟨0, 0⟩, ⟨1, 0⟩⟩ : Edge), ⟨1, 6, ⟨1, 0⟩, ⟨1, 2⟩⟩,
      ⟨6, 7, ⟨1, 2⟩, ⟨0, 2⟩⟩, ⟨7, 0, ⟨0, 2⟩, ⟨0, 0⟩⟩] =
    some [[⟨0, 1, ⟨0, 0⟩, ⟨1, 0⟩⟩, ⟨1, 6, ⟨1, 0⟩, ⟨1, 2⟩⟩,
      ⟨6, 7, ⟨1, 2⟩, ⟨0, 2⟩⟩, ⟨7, 0, ⟨0, 2⟩, ⟨0, 0⟩⟩]] from by decide]
  rfl

/-- The four edges `add_rect` pushes for a rectangle when nothing merges. -/
def four_edges (nid : Nat) (tl br : CellCoords) : List Edge :=
  [⟨nid, nid + 1, tl, ⟨br.x, tl.y⟩⟩,
   ⟨nid + 1, nid + 2, ⟨br.x, tl.y⟩, br⟩,
   ⟨nid + 2, nid + 3, br, ⟨tl.x, br.y⟩⟩,
   ⟨nid + 3, nid, ⟨tl.x, br.y⟩, tl⟩]

/-- The four corner points of a rectangle given by two opposite corners. -/
def rect_corners (r : CellCoords × CellCoords) : List CellCoords :=
  [r.1, ⟨r.2.x, r.1.y⟩, r.2, ⟨r.1.x, r.2.y⟩]

/-- When no existing edge satisfies either merge condition, the scan keeps
everything and the new edge is unchanged. -/
theorem add_edge_go_no_match :
    ∀ (l : List Edge) (id next : Nat) (s e : CellCoords) (acc : List Edge),
      (∀ edge ∈ l,
        ¬(edge.e_end = s ∧ (edge.start.x = e.x ∨ edge.start.y = e.y)) ∧
        ¬(e = edge.start ∧ (s.x = edge.e_end.x ∨ s.y = edge.e_end.y))) →
      add_edge_go l id next s e acc = (id, next, s, e, acc ++ l) := by
  intro l
  induction l with
  | nil =>
    intro id next s e acc h
    simp [add_edge_go]
  | cons edge rest ih =>
    intro id next s e acc h
    rw [add_edge_go, if_neg (h edge (List.mem_cons_self _ _)).1,
      if_neg (h edge (List.mem_cons_self _ _)).2]
    rw [ih id next s e (acc ++ [edge])
      (fun ed hed => h ed (List.mem_cons_of_mem _ hed))]
    simp

/-- `add_edge` with no merge partner appends the new edge unchanged. -/
theorem add_edge_no_merge (l : List Edge) (id next : Nat) (s e : CellCoords)
    (haxis : s.x = e.x ∨ s.y = e.y) (hne : ¬(s = e))
    (h : ∀ edge ∈ l,
      ¬(edge.e_end = s ∧ (edge.start.x = e.x ∨ edge.start.y = e.y)) ∧
      ¬(e = edge.start ∧ (s.x = edge.e_end.x ∨ s.y = edge.e_end.y))) :
    add_edge l id next s e = some (l ++ [⟨id, next, s, e⟩]) := by
  unfold add_edge
  rw [if_pos haxis, add_edge_go_no_match l id next s e [] h]
  simp [hne]

/-- A rectangle whose four corners touch no existing edge endpoint is added
as four fresh edges forming their own cycle. -/
theorem add_rect_fresh (rb : RangeBorder) (tl br : CellCoords)
    (h1 : tl.x < br.x) (h2 : tl.y < br.y)
    (h : ∀ edge ∈ rb.edges, ∀ p ∈ rect_corners (tl, br),
      ¬(edge.e_end = p) ∧ ¬(edge.start = p)) :
    add_rect rb tl br =
      some ⟨rb.next_edge_id + 4, rb.edges ++ four_edges rb.next_edge_id tl br⟩ := by
  have hmem0 : (tl : CellCoords) ∈ rect_corners (tl, br) := by simp [rect_corners]
  have hmem1 : (⟨br.x, tl.y⟩ : CellCoords) ∈ rect_corners (tl, br) := by
    simp [rect_corners]
  have hmem2 : (br : CellCoords) ∈ rect_corners (tl, br) := by simp [rect_corners]
  have hmem3 : (⟨tl.x, br.y⟩ : CellCoords) ∈ rect_corners (tl, br) := by
    simp [rect_corners]
  unfold add_rect
  simp only
  rw [add_edge_no_merge rb.edges rb.next_edge_id (rb.next_edge_id + 1) tl
    ⟨br.x, tl.y⟩ (by simp) (by simp [cell_coords_eq_iff]; omega)
    (fun edge hm => ⟨fun hc => ((h edge hm) tl hmem0).1 hc.1,
                     fun hc => ((h edge hm) ⟨br.x, tl.y⟩ hmem1).2 hc.1.symm⟩)]
  dsimp only
  rw [add_edge_no_merge _ (rb.next_edge_id + 1) (rb.next_edge_id + 2)
    ⟨br.x, tl.y⟩ br (by simp) (by simp [cell_coords_eq_iff]; omega) ?hd2]
  dsimp only
  rw [add_edge_no_merge _ (rb.next_edge_id + 2) (rb.next_edge_id + 3) br
    ⟨tl.x, br.y⟩ (by simp) (by simp [cell_coords_eq_iff]; omega) ?hd3]
  dsimp only
  rw [add_edge_no_merge _ (rb.next_edge_id + 3) rb.next_edge_id
    ⟨tl.x, br.y⟩ tl (by simp) (by simp [cell_coords_eq_iff]; omega) ?hd4]
  · simp [four_edges, List.append_assoc]
  case hd2 =>
    intro edge hm
    rcases List.mem_append.mp hm with hm | hm
    · exact ⟨fun hc => ((h edge hm) ⟨br.x, tl.y⟩ hmem1).1 hc.1,
             fun hc => ((h edge hm) br hmem2).2 hc.1.symm⟩
    · simp only [List.mem_singleton] at hm
      subst hm
      constructor
      · simp [cell_coords_eq_iff]
        omega
      · simp [cell_coords_eq_iff]
        omega
  case hd3 =>
    intro edge hm
    rcases List.mem_append.mp hm with hm | hm
    · rcases List.mem_append.mp hm with hm | hm
      · exact ⟨fun hc => ((h edge hm) br hmem2).1 hc.1,
               fun hc => ((h edge hm) ⟨tl.x, br.y⟩ hmem3).2 hc.1.symm⟩
      · simp only [List.mem_singleton] at hm
        subst hm
        constructor
        · simp [cell_coords_eq_iff]
          omega
        · simp [cell_coords_eq_iff]
          omega
    · simp only [List.mem_singleton] at hm
      subst hm
      constructor
      · simp [cell_coords_eq_iff]
        omega
      · simp [cell_coords_eq_iff]
        omega
  case hd4 =>
    intro edge hm
    rcases List.mem_append.mp hm with hm | hm
    · rcases List.mem_append.mp hm with hm | hm
      · rcases List.mem_append.mp hm with hm | hm
        · exact ⟨fun hc => ((h edge hm) ⟨tl.x, br.y⟩ hmem3).1 hc.1,
                 fun hc => ((h edge hm) tl hmem0).2 hc.1.symm⟩
        · simp only [List.mem_singleton] at hm
          subst hm
          constructor
          · simp [cell_coords_eq_iff]
            omega
          · simp [cell_coords_eq_iff]
            omega
      · simp only [List.mem_singleton] at hm
        subst hm
        constructor
        · simp [cell_coords_eq_iff]
          omega
        · simp [cell_coords_eq_iff]
          omega
    · simp only [List.mem_singleton] at hm
      subst hm
      constructor
      · simp [cell_coords_eq_iff]
        omega
      · simp [cell_coords_eq_iff]
        omega

/-- Pairwise corner-disjointness: no corner point of one rectangle equals a
corner point of another (the formal reading of "pairwise non-adjacent,
non-overlapping" used for claim C7's third scenario; disjoint closures imply
it). -/
def NonTouching (rects : List (CellCoords × CellCoords)) : Prop :=
  List.Pairwise (fun r1 r2 => ∀ p ∈ rect_corners r1, ∀ q ∈ rect_corners r2,
    ¬(p = q)) rects

/-- The edge set produced when every rectangle is added without merging:
one four-edge cycle per rectangle, ids in blocks of four. -/
def disjoint_border_edges : Nat → List (CellCoords × CellCoords) → List Edge
  | _, [] => []
  | nid, r :: rest => four_edges nid r.1 r.2 ++ disjoint_border_edges (nid + 4) rest

/-- The expected loops for corner-disjoint rectangles: one per rectangle. -/
def disjoint_border_loops : Nat → List (CellCoords × CellCoords) →
    List (List Edge)
  | _, [] => []
  | nid, r :: rest => four_edges nid r.1 r.2 :: disjoint_border_loops (nid + 4) rest

/-- Endpoints of a rectangle's four edges are its corners. -/
theorem four_edges_endpoints (nid : Nat) (tl br : CellCoords) :
    ∀ e ∈ four_edges nid tl br,
      e.start ∈ rect_corners (tl, br) ∧ e.e_end ∈ rect_corners (tl, br) := by
  intro e he
  simp only [four_edges, List.mem_cons, List.mem_singleton, List.not_mem_nil,
    or_false] at he
  rcases he with he | he | he | he <;> subst he <;> simp [rect_corners]

/-- Ids in the disjoint border are in the block `[nid, nid + 4·len)`. -/
theorem disjoint_border_edges_ids :
    ∀ (rects : List (CellCoords × CellCoords)) (nid : Nat),
      ∀ e ∈ disjoint_border_edges nid rects,
        nid ≤ e.id ∧ e.id < nid + 4 * rects.length := by
  intro rects
  induction rects with
  | nil =>
    intro nid e he
    simp [disjoint_border_edges] at he
  | cons r rest ih =>
    intro nid e he
    rw [disjoint_border_edges] at he
    rcases List.mem_append.mp he with he | he
    · simp only [four_edges, List.mem_cons, List.mem_singleton,
        List.not_mem_nil, or_false] at he
      have hlen : 1 ≤ (r :: rest).length := by simp
      rcases he with he | he | he | he <;> subst he <;> simp <;> omega
    · obtain ⟨ha, hb⟩ := ih (nid + 4) e he
      simp only [List.length_cons]
      omega

/-- Adding corner-disjoint, non-degenerate rectangles never merges: the
result is the concatenation of their four-edge cycles. -/
theorem add_rects_fresh_go :
    ∀ (rects : List (CellCoords × CellCoords)) (rb : RangeBorder),
      (∀ r ∈ rects, r.1.x < r.2.x ∧ r.1.y < r.2.y) →
      (∀ edge ∈ rb.edges, ∀ r ∈ rects, ∀ p ∈ rect_corners r,
        ¬(edge.e_end = p) ∧ ¬(edge.start = p)) →
      NonTouching rects →
      List.foldlM (fun rb r => add_rect rb r.1 r.2) rb rects =
        some ⟨rb.next_edge_id + 4 * rects.length,
          rb.edges ++ disjoint_border_edges rb.next_edge_id rects⟩ := by
  intro rects
  induction rects with
  | nil =>
    intro rb hnd hav hnt
    simp [disjoint_border_edges]
  | cons r rest ih =>
    intro rb hnd hav hnt
    rw [List.foldlM_cons]
    have hr := hnd r (List.mem_cons_self _ _)
    have hstep := add_rect_fresh rb r.1 r.2 hr.1 hr.2
      (fun edge hm => hav edge hm r (List.mem_cons_self _ _))
    rw [show add_rect rb r.1 r.2 =
      some ⟨rb.next_edge_id + 4, rb.edges ++ four_edges rb.next_edge_id r.1 r.2⟩
      from hstep]
    show List.foldlM _ _ rest = _
    rw [ih ⟨rb.next_edge_id + 4, rb.edges ++ four_edges rb.next_edge_id r.1 r.2⟩
      (fun r2 hm => hnd r2 (List.mem_cons_of_mem _ hm)) ?hav2
      ((List.pairwise_cons.mp hnt).2)]
    · simp only [List.length_cons]
      rw [List.append_assoc]
      congr 2
      omega
    case hav2 =>
      intro edge hm r2 hm2 p hp
      rcases List.mem_append.mp hm with hm | hm
      · exact hav edge hm r2 (List.mem_cons_of_mem _ hm2) p hp
      · obtain ⟨hs, he⟩ := four_edges_endpoints rb.next_edge_id r.1 r.2 edge hm
        have hrel := (List.pairwise_cons.mp hnt).1 r2 hm2
        exact ⟨fun hc => hrel edge.e_end he p hp hc,
               fun hc => hrel edge.start hs p hp hc⟩

/-- One successful step of the loop walk. -/
theorem extract_loop_go_step (fuel : Nat) (edges : List Edge) (nid : Nat)
    (e : Edge) (hfind : edges.find? (fun x => decide (x.id = nid)) = some e) :
    extract_loop_go (fuel + 1) edges nid =
      (e :: (extract_loop_go fuel
        (edges.filter (fun e2 => decide ¬(e2.id = nid))) e.next).1,
       (extract_loop_go fuel
        (edges.filter (fun e2 => decide ¬(e2.id = nid))) e.next).2) := by
  rw [extract_loop_go, hfind]

/-- The loop walk stops when the id is absent. -/
theorem extract_loop_go_stop (fuel : Nat) (edges : List Edge) (nid : Nat)
    (hfind : edges.find? (fun x => decide (x.id = nid)) = none) :
    extract_loop_go (fuel + 1) edges nid = ([], edges) := by
  rw [extract_loop_go, hfind]

/-- Extracting the loop of a fresh four-edge rectangle cycle placed before
unrelated edges visits exactly the four edges in order and leaves the rest. -/
theorem extract_loop_four (nid : Nat) (tl br : CellCoords) (rest : List Edge)
    (h : ∀ e ∈ rest, nid + 4 ≤ e.id) :
    extract_loop (four_edges nid tl br ++ rest) nid =
      (four_edges nid tl br, rest) := by
  have hr0 : ∀ e ∈ rest, ¬(e.id = nid) := fun e he => by have := h e he; omega
  have hr1 : ∀ e ∈ rest, ¬(e.id = nid + 1) := fun e he => by have := h e he; omega
  have hr2 : ∀ e ∈ rest, ¬(e.id = nid + 2) := fun e he => by have := h e he; omega
  have hr3 : ∀ e ∈ rest, ¬(e.id = nid + 3) := fun e he => by have := h e he; omega
  have hfil : ∀ (m : Nat), (∀ e ∈ rest, ¬(e.id = m)) →
      rest.filter (fun e2 => decide ¬(e2.id = m)) = rest := by
    intro m hm
    rw [List.filter_eq_self]
    intro a ha
    simp [hm a ha]
  have hlen : (four_edges nid tl br ++ rest).length + 1 = rest.length + 4 + 1 := by
    simp [four_edges]
  unfold extract_loop
  rw [hlen]
  rw [show four_edges nid tl br ++ rest =
    (⟨nid, nid + 1, tl, ⟨br.x, tl.y⟩⟩ : Edge) ::
    (⟨nid + 1, nid + 2, ⟨br.x, tl.y⟩, br⟩ : Edge) ::
    (⟨nid + 2, nid + 3, br, ⟨tl.x, br.y⟩⟩ : Edge) ::
    (⟨nid + 3, nid, ⟨tl.x, br.y⟩, tl⟩ : Edge) :: rest from by simp [four_edges]]
  rw [extract_loop_go_step _ _ nid ⟨nid, nid + 1, tl, ⟨br.x, tl.y⟩⟩
    (List.find?_cons_of_pos _ (by simp))]
  rw [List.filter_cons_of_neg (by simp), List.filter_cons_of_pos (by simp),
    List.filter_cons_of_pos (by simp), List.filter_cons_of_pos (by simp),
    hfil nid hr0]
  rw [extract_loop_go_step _ _ (nid + 1) ⟨nid + 1, nid + 2, ⟨br.x, tl.y⟩, br⟩
    (List.find?_cons_of_pos _ (by simp))]
  rw [List.filter_cons_of_neg (by simp), List.filter_cons_of_pos (by simp),
    List.filter_cons_of_pos (by simp), hfil (nid + 1) hr1]
  rw [extract_loop_go_step _ _ (nid + 2) ⟨nid + 2, nid + 3, br, ⟨tl.x, br.y⟩⟩
    (List.find?_cons_of_pos _ (by simp))]
  rw [List.filter_cons_of_neg (by simp), List.filter_cons_of_pos (by simp),
    hfil (nid + 2) hr2]
  rw [extract_loop_go_step _ _ (nid + 3) ⟨nid + 3, nid, ⟨tl.x, br.y⟩, tl⟩
    (List.find?_cons_of_pos _ (by simp))]
  rw [List.filter_cons_of_neg (by simp), hfil (nid + 3) hr3]
  rw [extract_loop_go_stop _ rest nid
    (List.find?_eq_none.mpr (fun e he => by simp [hr0 e he]))]
  simp [four_edges]

/-- The head is the minimum when it bounds the tail. -/
theorem min_ids_cons (n : Nat) (l : List Nat) (h : ∀ m ∈ l, n ≤ m) :
    (n :: l).min? = some n := by
  have hfold : ∀ (l2 : List Nat), (∀ m ∈ l2, n ≤ m) → l2.foldl min n = n := by
    intro l2
    induction l2 with
    | nil => intro _; rfl
    | cons a t ih =>
      intro h2
      rw [List.foldl_cons, Nat.min_eq_left (h2 a (List.mem_cons_self _ _))]
      exact ih (fun m hm => h2 m (List.mem_cons_of_mem _ hm))
  show some (l.foldl min n) = some n
  rw [hfold l h]

/-- Draining the loops of the disjoint border yields one four-edge loop per
rectangle, in order. -/
theorem extract_loops_go_disjoint :
    ∀ (rects : List (CellCoords × CellCoords)) (fuel nid : Nat),
      rects.length < fuel →
      extract_loops_go fuel (disjoint_border_edges nid rects) =
        disjoint_border_loops nid rects := by
  intro rects
  induction rects with
  | nil =>
    intro fuel nid hf
    cases fuel with
    | zero => omega
    | succ f =>
      rw [disjoint_border_edges, disjoint_border_loops, extract_loops_go]
      rfl
  | cons r rest ih =>
    intro fuel nid hf
    cases fuel with
    | zero => simp at hf
    | succ f =>
      rw [disjoint_border_edges, disjoint_border_loops, extract_loops_go]
      have hmin : ((four_edges nid r.1 r.2 ++
          disjoint_border_edges (nid + 4) rest).map (fun e => e.id)).min? =
          some nid := by
        rw [List.map_append]
        rw [show (four_edges nid r.1 r.2).map (fun e => e.id) =
          nid :: [nid + 1, nid + 2, nid + 3] from by simp [four_edges]]
        rw [List.cons_append]
        apply min_ids_cons
        intro m hm
        rcases List.mem_append.mp hm with hm | hm
        · simp at hm
          omega
        · obtain ⟨e, he, rfl⟩ := List.mem_map.mp hm
          have := (disjoint_border_edges_ids rest (nid + 4) e he).1
          omega
      rw [hmin]
      dsimp only
      rw [extract_loop_four nid r.1 r.2 (disjoint_border_edges (nid + 4) rest)
        (fun e he => (disjoint_border_edges_ids rest (nid + 4) e he).1)]
      rw [ih f (nid + 4) (by simpa using hf)]

/-- Ids of the disjoint border are pairwise distinct. -/
theorem disjoint_border_ids_nodup :
    ∀ (rects : List (CellCoords × CellCoords)) (nid : Nat),
      ((disjoint_border_edges nid rects).map (fun e => e.id)).Nodup := by
  intro rects
  induction rects with
  | nil =>
    intro nid
    simp [disjoint_border_edges]
  | cons r rest ih =>
    intro nid
    rw [disjoint_border_edges, List.map_append, List.nodup_append]
    refine ⟨?_, ih (nid + 4), ?_⟩
    · simp [four_edges]
    · intro a ha hb
      obtain ⟨e, he, rfl⟩ := List.mem_map.mp hb
      have hge := (disjoint_border_edges_ids rest (nid + 4) e he).1
      simp [four_edges] at ha
      rcases ha with h | h | h | h <;> omega

/-- One loop per rectangle in the expected loop list. -/
theorem disjoint_border_loops_length :
    ∀ (rects : List (CellCoords × CellCoords)) (nid : Nat),
      (disjoint_border_loops nid rects).length = rects.length := by
  intro rects
  induction rects with
  | nil =>
    intro nid
    rfl
  | cons r rest ih =>
    intro nid
    rw [disjoint_border_loops]
    simp only [List.length_cons]
    rw [ih (nid + 4)]

/-- The disjoint border has four edges per rectangle. -/
theorem disjoint_border_edges_length :
    ∀ (rects : List (CellCoords × CellCoords)) (nid : Nat),
      (disjoint_border_edges nid rects).length = 4 * rects.length := by
  intro rects
  induction rects with
  | nil =>
    intro nid
    rfl
  | cons r rest ih =>
    intro nid
    rw [disjoint_border_edges, List.length_append, ih (nid + 4)]
    simp [four_edges]
    omega

/-- Boundary extraction of pairwise corner-disjoint, non-degenerate
rectangles: exactly one loop per rectangle, each loop being that
rectangle's four edges. -/
theorem non_adjacent_rects_loops (rects : List (CellCoords × CellCoords))
    (hnd : ∀ r ∈ rects, r.1.x < r.2.x ∧ r.1.y < r.2.y)
    (hnt : NonTouching rects) :
    (add_rects rects).map (fun rb => loops_of_edges rb.edges) =
      some (some (disjoint_border_loops 0 rects)) ∧
    (disjoint_border_loops 0 rects).length = rects.length := by
  have hadd := add_rects_fresh_go rects ⟨0, []⟩ hnd
    (by intro edge hm; simp at hm) hnt
  refine ⟨?_, disjoint_border_loops_length rects 0⟩
  unfold add_rects
  rw [hadd]
  simp only [Option.map_some', List.nil_append]
  unfold loops_of_edges
  rw [if_pos (disjoint_border_ids_nodup rects 0)]
  unfold extract_loops
  rw [extract_loops_go_disjoint rects _ 0
    (by rw [disjoint_border_edges_length]; omega)]

/-- C7: Boundary extraction (add_rect per input rectangle, then walking
LoopsIter) satisfies: (a) for a single non-degenerate rectangle it yields
exactly one loop of exactly four edges tracing that rectangle; (b) for two
rectangles sharing a full edge (right edge of one = left edge of the other,
or bottom edge of one = top edge of the other) it yields exactly one loop
in which no edge lies on the shared boundary line; (c) for a list of
pairwise non-adjacent, non-overlapping (corner-disjoint) non-degenerate
rectangles it yields exactly one loop per rectangle, namely that
rectangle's own four edges. -/
theorem boundary_extraction_loops :
    (∀ tl br : CellCoords, tl.x < br.x → tl.y < br.y →
      (add_rects [(tl, br)]).map (fun rb => loops_of_edges rb.edges) =
        some (some [[⟨0, 1, tl, ⟨br.x, tl.y⟩⟩, ⟨1, 2, ⟨br.x, tl.y⟩, br⟩,
          ⟨2, 3, br, ⟨tl.x, br.y⟩⟩, ⟨3, 0, ⟨tl.x, br.y⟩, tl⟩]])) ∧
    (∀ a c e b d : Nat, a < c → c < e → b < d →
      (add_rects [(⟨a, b⟩, ⟨c, d⟩), (⟨c, b⟩, ⟨e, d⟩)]).map
          (fun rb => loops_of_edges rb.edges) =
        some (some [[⟨0, 5, ⟨a, b⟩, ⟨e, b⟩⟩, ⟨5, 6, ⟨e, b⟩, ⟨e, d⟩⟩,
          ⟨6, 3, ⟨e, d⟩, ⟨a, d⟩⟩, ⟨3, 0, ⟨a, d⟩, ⟨a, b⟩⟩]]) ∧
        ∀ edge ∈ ([⟨0, 5, ⟨a, b⟩, ⟨e, b⟩⟩, ⟨5, 6, ⟨e, b⟩, ⟨e, d⟩⟩,
          ⟨6, 3, ⟨e, d⟩, ⟨a, d⟩⟩, ⟨3, 0, ⟨a, d⟩, ⟨a, b⟩⟩] : List Edge),
          edge.start.x ≠ c ∨ edge.e_end.x ≠ c) ∧
    (∀ a c b d f : Nat, a < c → b < d → d < f →
      (add_rects [(⟨a, b⟩, ⟨c, d⟩), (⟨a, d⟩, ⟨c, f⟩)]).map
          (fun rb => loops_of_edges rb.edges) =
        some (some [[⟨0, 1, ⟨a, b⟩, ⟨c, b⟩⟩, ⟨1, 6, ⟨c, b⟩, ⟨c, f⟩⟩,
          ⟨6, 7, ⟨c, f⟩, ⟨a, f⟩⟩, ⟨7, 0, ⟨a, f⟩, ⟨a, b⟩⟩]]) ∧
        ∀ edge ∈ ([⟨0, 1, ⟨a, b⟩, ⟨c, b⟩⟩, ⟨1, 6, ⟨c, b⟩, ⟨c, f⟩⟩,
          ⟨6, 7, ⟨c, f⟩, ⟨a, f⟩⟩, ⟨7, 0, ⟨a, f⟩, ⟨a, b⟩⟩] : List Edge),
          edge.start.y ≠ d ∨ edge.e_end.y ≠ d) ∧
    (∀ rects : List (CellCoords × CellCoords),
      (∀ r ∈ rects, r.1.x < r.2.x ∧ r.1.y < r.2.y) → NonTouching rects →
      (add_rects rects).map (fun rb => loops_of_edges rb.edges) =
        some (some (disjoint_border_loops 0 rects)) ∧
      (disjoint_border_loops 0 rects).length = rects.length) := by
  refine ⟨fun tl br h1 h2 => single_rect_loops tl br h1 h2, ?_, ?_,
    fun rects hnd hnt => non_adjacent_rects_loops rects hnd hnt⟩
  · intro a c e b d hac hce hbd
    refine ⟨shared_edge_horizontal_loops a c e b d hac hce hbd, ?_⟩
    intro edge he
    simp only [List.mem_cons, List.not_mem_nil, or_false] at he
    rcases he with rfl | rfl | rfl | rfl <;> dsimp only <;> omega
  · intro a c b d f hac hbd hdf
    refine ⟨shared_edge_vertical_loops a c b d f hac hbd hdf, ?_⟩
    intro edge he
    simp only [List.mem_cons, List.not_mem_nil, or_false] at he
    rcases he with rfl | rfl | rfl | rfl <;> dsimp only <;> omega

/-- Witness for C7: the theorem applied to the rectangle (2,3)-(5,7) and to
the corner-disjoint pair (0,0)-(1,1), (2,2)-(3,3). -/
theorem boundary_extraction_loops_witness :
    ((2 : Nat) < 5 ∧ (3 : Nat) < 7) ∧
    (add_rects [((⟨2, 3⟩ : CellCoords), (⟨5, 7⟩ : CellCoords))]).map
        (fun rb => loops_of_edges rb.edges) =
      some (some [[⟨0, 1, ⟨2, 3⟩, ⟨5, 3⟩⟩, ⟨1, 2, ⟨5, 3⟩, ⟨5, 7⟩⟩,
        ⟨2, 3, ⟨5, 7⟩, ⟨2, 7⟩⟩, ⟨3, 0, ⟨2, 7⟩, ⟨2, 3⟩⟩]]) ∧
    (add_rects [((⟨0, 0⟩ : CellCoords), (⟨1, 1⟩ : CellCoords)),
        (⟨2, 2⟩, ⟨3, 3⟩)]).map (fun rb => loops_of_edges rb.edges) =
      some (some (disjoint_border_loops 0
        [(⟨0, 0⟩, ⟨1, 1⟩), (⟨2, 2⟩, ⟨3, 3⟩)])) :=
  ⟨⟨by decide, by decide⟩,
   boundary_extraction_loops.1 ⟨2, 3⟩ ⟨5, 7⟩ (by decide) (by decide),
   (boundary_extraction_loops.2.2.2 [(⟨0, 0⟩, ⟨1, 1⟩), (⟨2, 2⟩, ⟨3, 3⟩)]
     (by decide) (by unfold NonTouching; decide)).1⟩
